import Mathlib

/-!
Verification of the contract dependency-graph engine of the stellar-suite
repository: a shallow embedding in Lean 4 of
`contractDependencyDetectionService.ts` and
`contractDependencyWatcherService.ts`, together with proofs of the claimed
properties.

Modelling conventions:
- JavaScript `Map` (insertion ordered, unique keys, `set` updates in place)
  is embedded as an association list `List (String × α)` with `mapGet` /
  `mapSet`; `Map.values()` is `List.map Prod.snd`.
- JavaScript `Set` (insertion ordered, deduplicating `add`) is embedded as a
  duplicate-free `List String` built with `setAdd`.
- The filesystem and the two collaborators that are declared outside the
  embedded files (the manifest scanner and the deployment dependency
  resolver) are passed as explicit capability parameters, as the design
  notes of the system require for testing.
- `Date.now()` timestamps are explicit `Int` parameters.
- Exceptions are `Except String`.
- The unbounded recursions of the source (`calculateDepths`, the transitive
  traversals) are embedded with an explicit fuel parameter; the termination
  theorem shows the result does not depend on the fuel once it reaches the
  node count, which is exactly the guarantee given by the visited marker of
  the source.
-/

namespace StellarSuite

/-- Association-list lookup; first binding wins, mirroring the unique keys
of a JavaScript `Map`. -/
def mapGet {α : Type} (m : List (String × α)) (k : String) : Option α :=
  match m with
  | [] => none
  | (k₀, v) :: t => if k = k₀ then some v else mapGet t k

/-- Association-list update mirroring JavaScript `Map.set`: an existing key
is updated in place (its position is preserved), a new key is appended. -/
def mapSet {α : Type} (m : List (String × α)) (k : String) (v : α) :
    List (String × α) :=
  match m with
  | [] => [(k, v)]
  | (k₀, u) :: t => if k = k₀ then (k, v) :: t else (k₀, u) :: mapSet t k v

/-- JavaScript `Set.add`: appends unless already present. -/
def setAdd (s : List String) (x : String) : List String :=
  if x ∈ s then s else s ++ [x]

/-- Keys of an association list. -/
def mapKeys {α : Type} (m : List (String × α)) : List String :=
  m.map Prod.fst

/-- Lower-casing a string character by character, the embedding of
`String.prototype.toLowerCase` for the ASCII names the service compares. -/
def toLowerStr (s : String) : String :=
  String.mk (s.data.map Char.toLower)

/-- Both-ends whitespace trim, the embedding of `String.prototype.trim`. -/
def trimStr (s : String) : String :=
  String.mk
    (((s.data.dropWhile Char.isWhitespace).reverse.dropWhile
        Char.isWhitespace).reverse)

/-- Splitting on a single character, the embedding of
`content.split('\n')`. -/
def splitOnChar (c : Char) (s : String) : List String :=
  (s.data.foldr
    (fun ch acc =>
      match acc with
      | cur :: rest => if ch = c then [] :: cur :: rest else (ch :: cur) :: rest
      | [] => [[ch]])
    [[]]).map String.mk

/-- Embedding of `normalizePath`: every backslash becomes a forward slash,
then one trailing slash is dropped. -/
def normalizePath (p : String) : String :=
  let q := p.data.map (fun c => if c = '\\' then '/' else c)
  String.mk (if q.getLast? = some '/' then q.dropLast else q)

-- ── Data model ────────────────────────────────────────────────

/-- Dependency record of a parsed manifest (`CargoDependency`), as consumed
by the embedded code: an optional version, an optional local path and an
optional workspace marker. -/
structure CargoDependency where
  version : Option String := none
  path : Option String := none
  workspace : Option Bool := none
  deriving Repr, DecidableEq

/-- Parsed package manifest (`ContractMetadata`), restricted to the fields
the embedded code consumes. Dependency records are insertion-ordered maps
from dependency name to record. -/
structure ContractMetadata where
  contractName : String
  cargoTomlPath : String
  contractDir : String
  dependencies : List (String × CargoDependency) := []
  buildDependencies : List (String × CargoDependency) := []
  devDependencies : List (String × CargoDependency) := []
  deriving Repr, DecidableEq

/-- Import statement kinds recognised by the scanner. The source spells the
second one `extern_crate`. -/
inductive ImportType where
  | use
  | externCrate
  | mod
  deriving Repr, DecidableEq

/-- An import statement found in contract source code
(`ImportDependency`). -/
structure ImportDependency where
  sourceContract : String
  importedModule : String
  importType : ImportType
  sourceFile : String
  lineNumber : Nat
  statement : String
  deriving Repr, DecidableEq

/-- Edge produced by the deployment dependency resolver
(`DependencyEdge`), restricted to the fields the embedded code reads. -/
structure DependencyEdge where
  «from» : String
  «to» : String
  reason : String
  dependencyName : String
  deriving Repr, DecidableEq

/-- Evidentiary source of an edge: `'cargo' | 'import' | 'both'`. -/
inductive EdgeSource where
  | cargo
  | «import»
  | both
  deriving Repr, DecidableEq

/-- Merged edge (`EnhancedDependencyEdge`). The optional `imports` list
mirrors the optional field of the source, which is `undefined` on a pure
cargo edge until an import is appended. -/
structure EnhancedDependencyEdge where
  «from» : String
  «to» : String
  reason : String
  dependencyName : String
  source : EdgeSource
  imports : Option (List ImportDependency) := none
  isExternal : Bool
  cargoMetadata : Option CargoDependency := none
  deriving Repr, DecidableEq

/-- Node of the dependency graph (`DependencyNode`). -/
structure DependencyNode where
  name : String
  cargoTomlPath : String
  contractDir : String
  dependencies : List String
  dependents : List String
  isExternal : Bool
  dependencyCount : Nat
  dependentCount : Nat
  depth : Nat
  deriving Repr, DecidableEq

/-- Aggregate statistics (`DependencyGraphStatistics`). The mean is exact
(rational) where the source uses a float; no claim depends on it. -/
structure DependencyGraphStatistics where
  totalContracts : Nat
  totalDependencies : Nat
  externalDependencies : Nat
  circularDependencies : Nat
  maxDepth : Nat
  avgDependenciesPerContract : Rat
  leafContracts : Nat
  rootContracts : Nat
  deriving Repr, DecidableEq

/-- Output of the deployment dependency resolver
(`DependencyResolutionResult`): edges, every cycle found, topological order
and parallel levels. The resolver itself lives outside the embedded files
and is passed as a capability. -/
structure DependencyResolutionResult where
  edges : List DependencyEdge
  cycles : List (List String)
  order : List String
  levels : List (List String)
  deriving Repr, DecidableEq

/-- Complete dependency graph (`DependencyGraph`). -/
structure DependencyGraph where
  nodes : List (String × DependencyNode)
  edges : List EnhancedDependencyEdge
  imports : List ImportDependency
  cycles : List (List String)
  deploymentOrder : List String
  deploymentLevels : List (List String)
  externalDependencies : List String
  workspaceContracts : List String
  statistics : DependencyGraphStatistics
  deriving Repr, DecidableEq

/-- Detection options (`DependencyDetectionOptions`); absent fields mirror
`undefined` and are filled with the documented defaults on use. -/
structure DependencyDetectionOptions where
  includeDevDependencies : Option Bool := none
  includeBuildDependencies : Option Bool := none
  detectImports : Option Bool := none
  maxSourceDepth : Option Nat := none
  sourceExtensions : Option (List String) := none
  deriving Repr, DecidableEq

-- ── Filesystem capability ─────────────────────────────────────

/-- Directory entry as seen through `readdirSync(dir, withFileTypes)`; an
entry that is neither a file nor a directory (a symbolic link, say) is
`other` and is skipped by the scanner. -/
inductive FsEntry where
  | file (name : String)
  | dir (name : String)
  | other (name : String)
  deriving Repr, DecidableEq

/-- Fallible filesystem capability: directory listing and whole-file read,
each may fail like the synchronous Node calls the source wraps in
`try`/`catch`. -/
structure FileSystem where
  readdir : String → Except String (List FsEntry)
  readFile : String → Except String String

/-- Embedding of `path.join(dir, entry.name)` for the opaque directory
tokens of the model. -/
def pathJoin (dir name : String) : String :=
  dir ++ "/" ++ name

/-- Embedding of `path.extname`: the suffix from the last dot, empty when
there is no dot or the only dot leads the name. -/
def extname (n : String) : String :=
  match n.data.reverse.findIdx? (fun c => c = '.') with
  | none => ""
  | some rIdx =>
    let i := n.data.length - 1 - rIdx
    if i = 0 then "" else String.mk (n.data.drop i)

-- ── Detection-service cache state ─────────────────────────────

/-- Mutable state of `ContractDependencyDetectionService`: the cached graph
and the wall-clock instant of the last successful build. -/
structure DetectionState where
  cachedGraph : Option DependencyGraph
  lastScanTime : Int
  deriving DecidableEq

/-- Initial state of a freshly constructed detection service. -/
def DetectionState.initial : DetectionState :=
  { cachedGraph := none, lastScanTime := 0 }

/-- Embedding of `getCachedGraph(maxAge = 60000)` read at instant `now`:
`null` without a cached graph, `null` when the age exceeds `maxAge`, the
cached instance otherwise. -/
def getCachedGraph (st : DetectionState) (now : Int) (maxAge : Int := 60000) :
    Option DependencyGraph :=
  match st.cachedGraph with
  | none => none
  | some g => if now - st.lastScanTime > maxAge then none else some g

/-- Embedding of `invalidateCache()`. -/
def invalidateCache (_st : DetectionState) : DetectionState :=
  { cachedGraph := none, lastScanTime := 0 }

-- ── Import scanner ────────────────────────────────────────────

/-- Directory names the scanner skips. -/
def skippedDirs : List String :=
  ["target", "node_modules", ".git", "out"]

/-- Recursive worker of `findSourceFiles`. The source recurses while
`currentDepth <= maxDepth`; `remaining` is `maxDepth + 1 - currentDepth`,
so `remaining = 0` is exactly the `currentDepth > maxDepth` early return. A
listing failure yields the files accumulated so far for that directory,
which is the empty list, like the surrounding `try`/`catch`. -/
def findSourceFilesGo (fs : FileSystem) (extensions : List String) :
    Nat → String → List String
  | 0, _ => []
  | remaining + 1, dir =>
    match fs.readdir dir with
    | .error _ => []
    | .ok entries =>
      entries.foldl
        (fun files entry =>
          match entry with
          | .dir name =>
            if name ∈ skippedDirs then files
            else files ++ findSourceFilesGo fs extensions remaining (pathJoin dir name)
          | .file name =>
            if extname name ∈ extensions then files ++ [pathJoin dir name]
            else files
          | .other _ => files)
        []

/-- Embedding of `findSourceFiles(dir, extensions, maxDepth)`. -/
def findSourceFiles (fs : FileSystem) (dir : String) (extensions : List String)
    (maxDepth : Nat) : List String :=
  findSourceFilesGo fs extensions (maxDepth + 1) dir

/-- Identifier head characters `[a-zA-Z_]` of the three import patterns. -/
def isIdentStart (c : Char) : Bool :=
  c.isAlpha || c = '_'

/-- Identifier tail characters `[a-zA-Z0-9_]`. -/
def isIdentChar (c : Char) : Bool :=
  c.isAlphanum || c = '_'

/-- Literal keyword at the head of the character list. -/
def matchLiteral (kw : String) (cs : List Char) : Option (List Char) :=
  if cs.take kw.length = kw.data then some (cs.drop kw.length) else none

/-- One or more whitespace characters (`\s+`). -/
def matchSpaces (cs : List Char) : Option (List Char) :=
  match cs with
  | c :: rest =>
    if c.isWhitespace then some (rest.dropWhile Char.isWhitespace) else none
  | [] => none

/-- Captured identifier `([a-zA-Z_][a-zA-Z0-9_]*)`. -/
def matchIdent (cs : List Char) : Option String :=
  match cs with
  | c :: rest =>
    if isIdentStart c then some (String.mk (c :: rest.takeWhile isIdentChar))
    else none
  | [] => none

/-- Line-anchored pattern `^use\s+([a-zA-Z_][a-zA-Z0-9_]*)` on a trimmed
line; returns the captured crate name. -/
def matchUse (line : String) : Option String := do
  let cs ← matchLiteral "use" line.data
  let cs ← matchSpaces cs
  matchIdent cs

/-- Line-anchored pattern `^extern\s+crate\s+([a-zA-Z_][a-zA-Z0-9_]*)`. -/
def matchExternCrate (line : String) : Option String := do
  let cs ← matchLiteral "extern" line.data
  let cs ← matchSpaces cs
  let cs ← matchLiteral "crate" cs
  let cs ← matchSpaces cs
  matchIdent cs

/-- Line-anchored pattern `^mod\s+([a-zA-Z_][a-zA-Z0-9_]*)`. -/
def matchMod (line : String) : Option String := do
  let cs ← matchLiteral "mod" line.data
  let cs ← matchSpaces cs
  matchIdent cs

/-- Per-line recognition, first match wins: `use`, then `extern crate`,
then `mod`. `lineNumber` is one-based, `statement` is the trimmed line. -/
def parseImportLine (contractName filePath : String) (idx : Nat)
    (rawLine : String) : List ImportDependency :=
  let line := trimStr rawLine
  let lineNumber := idx + 1
  match matchUse line with
  | some m =>
    [{ sourceContract := contractName, importedModule := m,
       importType := .use, sourceFile := filePath, lineNumber := lineNumber,
       statement := line }]
  | none =>
    match matchExternCrate line with
    | some m =>
      [{ sourceContract := contractName, importedModule := m,
         importType := .externCrate, sourceFile := filePath,
         lineNumber := lineNumber, statement := line }]
    | none =>
      match matchMod line with
      | some m =>
        [{ sourceContract := contractName, importedModule := m,
           importType := .mod, sourceFile := filePath,
           lineNumber := lineNumber, statement := line }]
      | none => []

/-- Embedding of `parseImportsFromFile`: a failed read is caught before any
record is accumulated, so it contributes the empty list. -/
def parseImportsFromFile (fs : FileSystem) (filePath contractName : String)
    (_cargoTomlPath : String) : List ImportDependency :=
  match fs.readFile filePath with
  | .error _ => []
  | .ok content =>
    let lines := splitOnChar '\n' content
    (lines.enum.map fun p => parseImportLine contractName filePath p.1 p.2).flatten

/-- Embedding of `detectImportDependencies`: per contract, scan for source
files, then parse each, accumulating in order. The local defaults of the
source (`maxSourceDepth = 3`, `sourceExtensions = ['.rs']`) are applied to
absent options. -/
def detectImportDependencies (fs : FileSystem)
    (contracts : List ContractMetadata)
    (options : DependencyDetectionOptions) : List ImportDependency :=
  let maxSourceDepth := options.maxSourceDepth.getD 3
  let sourceExtensions := options.sourceExtensions.getD [".rs"]
  contracts.foldl
    (fun imports contract =>
      let sourceFiles :=
        findSourceFiles fs contract.contractDir sourceExtensions maxSourceDepth
      sourceFiles.foldl
        (fun acc sourceFile =>
          acc ++ parseImportsFromFile fs sourceFile contract.contractName
            contract.cargoTomlPath)
        imports)
    []

-- ── Edge merger ───────────────────────────────────────────────

/-- Merged dependency record map of one contract, the embedding of the
object spread `{...dependencies, ...buildDependencies, ...devDependencies}`
(later maps win on a shared key, first writer fixes the position). -/
def allDepsOf (c : ContractMetadata) : List (String × CargoDependency) :=
  let m := c.dependencies.foldl (fun m p => mapSet m p.1 p.2) []
  let m := c.buildDependencies.foldl (fun m p => mapSet m p.1 p.2) m
  c.devDependencies.foldl (fun m p => mapSet m p.1 p.2) m

/-- Embedding of `findCargoDependency`: lookup in the merged record map. -/
def findCargoDependency (contract : ContractMetadata)
    (dependencyName : String) : Option CargoDependency :=
  mapGet (allDepsOf contract) dependencyName

/-- Path-keyed contract lookup used by the merger, keys normalised. -/
def contractByPath (contracts : List ContractMetadata) :
    List (String × ContractMetadata) :=
  contracts.foldl
    (fun m c => mapSet m (normalizePath c.cargoTomlPath) c) []

/-- Name-keyed contract lookup used by the merger, keys lower-cased. -/
def contractByName (contracts : List ContractMetadata) :
    List (String × ContractMetadata) :=
  contracts.foldl (fun m c => mapSet m (toLowerStr c.contractName) c) []

/-- Key of the edge map: `edge.from + '|' + edge.to`. -/
def edgeKey (f t : String) : String :=
  f ++ "|" ++ t

/-- First-phase step of `buildEnhancedEdges` for one resolver edge: the
edge becomes a `source = cargo` entry of the edge map, decorated with the
manifest record found on the owning contract. -/
def cargoStep (byPath : List (String × ContractMetadata))
    (m : List (String × EnhancedDependencyEdge)) (edge : DependencyEdge) :
    List (String × EnhancedDependencyEdge) :=
  mapSet m (edgeKey edge.«from» edge.«to»)
    { «from» := edge.«from», «to» := edge.«to», reason := edge.reason,
      dependencyName := edge.dependencyName, source := .cargo,
      imports := none, isExternal := false,
      cargoMetadata := (mapGet byPath (normalizePath edge.«from»)).bind
        fun fc => findCargoDependency fc edge.dependencyName }

/-- First phase of `buildEnhancedEdges` over all resolver edges. -/
def cargoPhase (cargoEdges : List DependencyEdge)
    (contracts : List ContractMetadata) :
    List (String × EnhancedDependencyEdge) :=
  cargoEdges.foldl (cargoStep (contractByPath contracts)) []

/-- Second-phase step of `buildEnhancedEdges` for one import record: when
both endpoints resolve case-insensitively to workspace contracts, either
confirm the existing edge (`source` becomes `both`, the record is appended
to its supporting imports) or synthesize a new `source = import` edge. -/
def importStep (byName : List (String × ContractMetadata))
    (m : List (String × EnhancedDependencyEdge)) (imp : ImportDependency) :
    List (String × EnhancedDependencyEdge) :=
  match mapGet byName (toLowerStr imp.sourceContract),
      mapGet byName (toLowerStr imp.importedModule) with
  | some sourceContract, some targetContract =>
    let key := edgeKey sourceContract.cargoTomlPath targetContract.cargoTomlPath
    match mapGet m key with
    | some existing =>
      mapSet m key
        { existing with
          source := .both,
          imports := some (existing.imports.getD [] ++ [imp]) }
    | none =>
      mapSet m key
        { «from» := sourceContract.cargoTomlPath,
          «to» := targetContract.cargoTomlPath, reason := "workspace",
          dependencyName := imp.importedModule, source := .«import»,
          isExternal := false, imports := some [imp], cargoMetadata := none }
  | _, _ => m

/-- Second phase of `buildEnhancedEdges` over the whole import list. -/
def importPhase (byName : List (String × ContractMetadata))
    (m : List (String × EnhancedDependencyEdge))
    (imports : List ImportDependency) :
    List (String × EnhancedDependencyEdge) :=
  imports.foldl (importStep byName) m

/-- Embedding of `buildEnhancedEdges`: cargo phase, then import phase, then
the values of the edge map in insertion order. -/
def buildEnhancedEdges (cargoEdges : List DependencyEdge)
    (imports : List ImportDependency) (contracts : List ContractMetadata) :
    List EnhancedDependencyEdge :=
  (importPhase (contractByName contracts) (cargoPhase cargoEdges contracts)
    imports).map Prod.snd

-- ── Graph assembler ───────────────────────────────────────────

/-- Node map threaded through `buildNodes` and `calculateDepths`. -/
abbrev NodeMap := List (String × DependencyNode)

/-- Freshly initialised node of one contract. -/
def initNode (c : ContractMetadata) : DependencyNode :=
  { name := c.contractName, cargoTomlPath := c.cargoTomlPath,
    contractDir := c.contractDir, dependencies := [], dependents := [],
    isExternal := false, dependencyCount := 0, dependentCount := 0,
    depth := 0 }

/-- Loop body of the adjacency pass of `buildNodes` for one edge: resolve
both endpoints through the contract list by normalised manifest path, then
append to the duplicate-checked adjacency lists, incrementing the counts in
lockstep. The second update reads through the map updated by the first, the
way the aliased objects of the source behave on a self edge. -/
def addEdgeToNodes (contracts : List ContractMetadata) (m : NodeMap)
    (edge : EnhancedDependencyEdge) : NodeMap :=
  match contracts.find?
      (fun c => normalizePath c.cargoTomlPath = normalizePath edge.«from»),
    contracts.find?
      (fun c => normalizePath c.cargoTomlPath = normalizePath edge.«to») with
  | some fromContract, some toContract =>
    match mapGet m fromContract.contractName,
        mapGet m toContract.contractName with
    | some fromNode, some toNode =>
      let m1 :=
        if toNode.name ∈ fromNode.dependencies then m
        else
          mapSet m fromContract.contractName
            { fromNode with
              dependencies := fromNode.dependencies ++ [toNode.name],
              dependencyCount := fromNode.dependencyCount + 1 }
      match mapGet m1 toContract.contractName with
      | some toNode1 =>
        if fromNode.name ∈ toNode1.dependents then m1
        else
          mapSet m1 toContract.contractName
            { toNode1 with
              dependents := toNode1.dependents ++ [fromNode.name],
              dependentCount := toNode1.dependentCount + 1 }
      | none => m1
    | _, _ => m
  | _, _ => m

/-- Recursive worker of `calculateDepths`, threading the node map, the
visited set and one computed depth. The fuel only mirrors the call stack:
the termination theorem shows any fuel beyond the node count gives the same
result, which is what the visited marker guarantees in the source. -/
def calculateDepthGo :
    Nat → NodeMap → List String → String → NodeMap × List String × Nat
  | 0, nodes, visited, _ => (nodes, visited, 0)
  | fuel + 1, nodes, visited, nodeName =>
    if nodeName ∈ visited then
      (nodes, visited, ((mapGet nodes nodeName).map DependencyNode.depth).getD 0)
    else
      let visited := nodeName :: visited
      match mapGet nodes nodeName with
      | none => (nodes, visited, 0)
      | some node =>
        if node.dependencies = [] then
          (mapSet nodes nodeName { node with depth := 0 }, visited, 0)
        else
          let r :=
            node.dependencies.foldl
              (fun acc dep =>
                let r2 := calculateDepthGo fuel acc.1 acc.2.1 dep
                (r2.1, r2.2.1, max acc.2.2 r2.2.2))
              (nodes, visited, 0)
          let node1 := (mapGet r.1 nodeName).getD node
          (mapSet r.1 nodeName { node1 with depth := r.2.2 + 1 }, r.2.1,
            r.2.2 + 1)

/-- Outer loop of `calculateDepths` over the key list, at a given fuel. -/
def calculateDepthsWith (fuel : Nat) (nodes : NodeMap) : NodeMap :=
  ((mapKeys nodes).foldl
    (fun acc name =>
      let r := calculateDepthGo fuel acc.1 acc.2 name
      (r.1, r.2.1))
    (nodes, ([] : List String))).1

/-- Embedding of `calculateDepths` at the canonical sufficient fuel. -/
def calculateDepths (nodes : NodeMap) : NodeMap :=
  calculateDepthsWith (nodes.length + 1) nodes

/-- Embedding of `buildNodes`: initialise one node per contract, run the
adjacency pass over the edges, then compute depths. -/
def buildNodes (contracts : List ContractMetadata)
    (edges : List EnhancedDependencyEdge) : NodeMap :=
  let nodes :=
    contracts.foldl (fun m c => mapSet m c.contractName (initNode c)) []
  calculateDepths (edges.foldl (addEdgeToNodes contracts) nodes)

/-- Embedding of `identifyExternalDependencies`: a dependency name is
external when its record carries no truthy `path` and the name is not a
workspace contract name; both results are insertion-ordered deduplicated
sets. -/
def identifyExternalDependencies (contracts : List ContractMetadata)
    (_edges : List EnhancedDependencyEdge) : List String × List String :=
  let workspaceContracts :=
    contracts.foldl (fun s c => setAdd s c.contractName) []
  let externalDependencies :=
    contracts.foldl
      (fun ext c =>
        (allDepsOf c).foldl
          (fun ext p =>
            if p.2.path.getD "" = "" ∧ p.1 ∉ workspaceContracts then
              setAdd ext p.1
            else ext)
          ext)
      []
  (externalDependencies, workspaceContracts)

/-- Embedding of `calculateStatistics`. The source stores the literal `0`
into `circularDependencies` behind a comment saying the caller will set it;
the embedding reproduces that literal. -/
def calculateStatistics (nodes : NodeMap)
    (edges : List EnhancedDependencyEdge)
    (externalDependencies : List String) : DependencyGraphStatistics :=
  let totalContracts := nodes.length
  let totalDependencies := edges.length
  let maxDepth := (nodes.map (fun p => p.2.depth)).foldl max 0
  let avg : Rat :=
    if totalContracts > 0 then (totalDependencies : Rat) / (totalContracts : Rat)
    else 0
  { totalContracts := totalContracts, totalDependencies := totalDependencies,
    externalDependencies := externalDependencies.length,
    circularDependencies := 0, maxDepth := maxDepth,
    avgDependenciesPerContract := avg,
    leafContracts := (nodes.filter (fun p => p.2.dependencyCount = 0)).length,
    rootContracts := (nodes.filter (fun p => p.2.dependentCount = 0)).length }

-- ── Graph construction ────────────────────────────────────────

/-- Options with the documented defaults of `buildDependencyGraph`
applied. -/
structure ResolvedDetectionOptions where
  includeDevDependencies : Bool
  includeBuildDependencies : Bool
  detectImports : Bool
  maxSourceDepth : Nat
  sourceExtensions : List String
  deriving Repr, DecidableEq

/-- The option spread of `buildDependencyGraph`: defaults overridden by the
fields the caller defined. -/
def resolveDetectionOptions (o : DependencyDetectionOptions) :
    ResolvedDetectionOptions :=
  { includeDevDependencies := o.includeDevDependencies.getD false,
    includeBuildDependencies := o.includeBuildDependencies.getD true,
    detectImports := o.detectImports.getD true,
    maxSourceDepth := o.maxSourceDepth.getD 3,
    sourceExtensions := o.sourceExtensions.getD [".rs"] }

/-- Fully defined options passed on to the import scanner. -/
def ResolvedDetectionOptions.toOptions (o : ResolvedDetectionOptions) :
    DependencyDetectionOptions :=
  { includeDevDependencies := some o.includeDevDependencies,
    includeBuildDependencies := some o.includeBuildDependencies,
    detectImports := some o.detectImports,
    maxSourceDepth := some o.maxSourceDepth,
    sourceExtensions := some o.sourceExtensions }

/-- Steps 2 to 6 of `buildDependencyGraph` after the resolver returned:
the import detection, edge merging, node assembly, classification and
statistics passes, then the aggregate record. -/
def buildGraphCore (cargoResolution : DependencyResolutionResult)
    (fs : FileSystem) (contracts : List ContractMetadata)
    (opts : ResolvedDetectionOptions) : DependencyGraph :=
  let imports :=
    if opts.detectImports then
      detectImportDependencies fs contracts opts.toOptions
    else []
  let enhancedEdges := buildEnhancedEdges cargoResolution.edges imports contracts
  let nodes := buildNodes contracts enhancedEdges
  let ext := identifyExternalDependencies contracts enhancedEdges
  { nodes := nodes, edges := enhancedEdges, imports := imports,
    cycles := cargoResolution.cycles,
    deploymentOrder := cargoResolution.order,
    deploymentLevels := cargoResolution.levels,
    externalDependencies := ext.1, workspaceContracts := ext.2,
    statistics := calculateStatistics nodes enhancedEdges ext.1 }

/-- Embedding of the service method `buildDependencyGraph`: option
defaults, the fallible resolver capability, the pure assembly, then the
cache update stamped with `Date.now()`. A resolver failure propagates
before any state is touched. -/
def buildDependencyGraph
    (resolve : List ContractMetadata → Bool → Except String DependencyResolutionResult)
    (fs : FileSystem) (contracts : List ContractMetadata)
    (options : DependencyDetectionOptions) (now : Int) :
    Except String (DependencyGraph × DetectionState) :=
  let opts := resolveDetectionOptions options
  match resolve contracts opts.includeDevDependencies with
  | .error e => .error e
  | .ok cargoResolution =>
    let graph := buildGraphCore cargoResolution fs contracts opts
    .ok (graph, { cachedGraph := some graph, lastScanTime := now })

/-- Embedding of `hasCircularDependencies`. -/
def hasCircularDependencies (graph : DependencyGraph) : Bool :=
  decide (0 < graph.cycles.length)

-- ── Queries ───────────────────────────────────────────────────

/-- Recursive worker shared by the two transitive traversals: walk the
adjacency selected by `adj`, a visited set preventing re-entry, appending
each newly reached node. -/
def getTransitiveGo (nodes : NodeMap) (adj : DependencyNode → List String) :
    Nat → List String → List DependencyNode → String →
      List String × List DependencyNode
  | 0, visited, transitive, _ => (visited, transitive)
  | fuel + 1, visited, transitive, name =>
    match (nodes.map Prod.snd).find? (fun n => n.name = name) with
    | none => (visited, transitive)
    | some node =>
      (adj node).foldl
        (fun acc depName =>
          if depName ∈ acc.1 then acc
          else
            let visited1 := acc.1 ++ [depName]
            match mapGet nodes depName with
            | some depNode =>
              getTransitiveGo nodes adj fuel visited1 (acc.2 ++ [depNode])
                depName
            | none => (visited1, acc.2))
        (visited, transitive)

/-- Embedding of `getTransitiveDependencies`. -/
def getTransitiveDependencies (graph : DependencyGraph)
    (contractName : String) : List DependencyNode :=
  (getTransitiveGo graph.nodes (fun n => n.dependencies)
    (graph.nodes.length + 1) [] [] contractName).2

/-- Embedding of `getTransitiveDependents`. -/
def getTransitiveDependents (graph : DependencyGraph)
    (contractName : String) : List DependencyNode :=
  (getTransitiveGo graph.nodes (fun n => n.dependents)
    (graph.nodes.length + 1) [] [] contractName).2

/-- Embedding of `getContractDependencies`: the node is searched among the
map values by its `name` field; an unknown name yields two empty lists. -/
def getContractDependencies (graph : DependencyGraph)
    (contractName : String) : List DependencyNode × List DependencyNode :=
  match (graph.nodes.map Prod.snd).find? (fun n => n.name = contractName) with
  | none => ([], [])
  | some node =>
    (node.dependencies.filterMap (fun depName => mapGet graph.nodes depName),
      getTransitiveDependencies graph contractName)

/-- Embedding of `getContractDependents`. -/
def getContractDependents (graph : DependencyGraph)
    (contractName : String) : List DependencyNode × List DependencyNode :=
  match (graph.nodes.map Prod.snd).find? (fun n => n.name = contractName) with
  | none => ([], [])
  | some node =>
    (node.dependents.filterMap (fun depName => mapGet graph.nodes depName),
      getTransitiveDependents graph contractName)

-- ── Change coordinator ────────────────────────────────────────

/-- Change kinds of `DependencyChangeEvent`; the source spells the last one
`full-refresh`. -/
inductive ChangeType where
  | added
  | removed
  | modified
  | fullRefresh
  deriving Repr, DecidableEq

/-- Change event published after a successful rebuild. -/
structure DependencyChangeEvent where
  type : ChangeType
  affectedContracts : List String
  timestamp : Int
  graph : DependencyGraph
  deriving DecidableEq

/-- State of `ContractDependencyWatcherService` relevant to a refresh: the
detection service it owns, the pending-change set, the running flag and the
`watchSourceFiles` option. -/
structure WatcherState where
  detection : DetectionState
  pendingChanges : List String
  isRunning : Bool
  watchSourceFiles : Bool
  deriving DecidableEq

/-- Embedding of the watcher's `refresh`: invalidate the cache first, then
scan (a collaborator call, passed as its fallible result), then return
early on an empty workspace, then build and publish. Failures of the scan
or the build escape after the invalidation already happened; the pending
set clears only on a successful publish. -/
def refresh (st : WatcherState)
    (scan : Except String (List ContractMetadata))
    (resolve : List ContractMetadata → Bool → Except String DependencyResolutionResult)
    (fs : FileSystem) (changeType : ChangeType) (now : Int) :
    WatcherState × Except String (Option DependencyChangeEvent) :=
  let det1 := invalidateCache st.detection
  match scan with
  | .error e => ({ st with detection := det1 }, .error e)
  | .ok contracts =>
    if contracts.length = 0 then
      ({ st with detection := det1 }, .ok none)
    else
      match buildDependencyGraph resolve fs contracts
          { detectImports := some st.watchSourceFiles } now with
      | .error e => ({ st with detection := det1 }, .error e)
      | .ok (graph, det2) =>
        let event : DependencyChangeEvent :=
          { type := changeType, affectedContracts := st.pendingChanges,
            timestamp := now, graph := graph }
        ({ st with detection := det2, pendingChanges := [] }, .ok (some event))

/-- A debounced automatic refresh: the timer callback catches and logs any
failure (`.catch` in `scheduleRefresh`), so only the state transition
survives. -/
def debouncedRefresh (st : WatcherState)
    (scan : Except String (List ContractMetadata))
    (resolve : List ContractMetadata → Bool → Except String DependencyResolutionResult)
    (fs : FileSystem) (changeType : ChangeType) (now : Int) : WatcherState :=
  (refresh st scan resolve fs changeType now).1

-- ── Association-list lemmas ───────────────────────────────────

theorem mapGet_mapSet_self {α : Type} (m : List (String × α)) (k : String)
    (v : α) : mapGet (mapSet m k v) k = some v := by
  induction m with
  | nil => simp [mapSet, mapGet]
  | cons p t ih =>
    obtain ⟨k₀, u⟩ := p
    by_cases h : k = k₀
    · simp [mapSet, h, mapGet]
    · simp [mapSet, h, mapGet, ih]

theorem mapGet_mapSet_ne {α : Type} (m : List (String × α)) (k k' : String)
    (v : α) (h : k' ≠ k) : mapGet (mapSet m k v) k' = mapGet m k' := by
  induction m with
  | nil => simp [mapSet, mapGet, h]
  | cons p t ih =>
    obtain ⟨k₀, u⟩ := p
    by_cases hk : k = k₀
    · subst hk
      simp [mapSet, mapGet, h]
    · simp [mapSet, hk, mapGet, ih]

theorem length_mapSet_of_get_some {α : Type} (m : List (String × α))
    (k : String) (w : α) (h : ∃ v, mapGet m k = some v) :
    (mapSet m k w).length = m.length := by
  induction m with
  | nil => simp [mapGet] at h
  | cons p t ih =>
    obtain ⟨k₀, u⟩ := p
    by_cases hk : k = k₀
    · simp [mapSet, hk]
    · simp [mapGet, hk] at h
      simp [mapSet, hk, ih h]

theorem length_mapSet_of_get_none {α : Type} (m : List (String × α))
    (k : String) (w : α) (h : mapGet m k = none) :
    (mapSet m k w).length = m.length + 1 := by
  induction m with
  | nil => simp [mapSet]
  | cons p t ih =>
    obtain ⟨k₀, u⟩ := p
    by_cases hk : k = k₀
    · simp [mapGet, hk] at h
    · simp [mapGet, hk] at h
      simp [mapSet, hk, ih h]

theorem mem_of_mapGet_eq_some {α : Type} (m : List (String × α))
    (k : String) (v : α) (h : mapGet m k = some v) : (k, v) ∈ m := by
  induction m with
  | nil => simp [mapGet] at h
  | cons p t ih =>
    obtain ⟨k₀, u⟩ := p
    by_cases hk : k = k₀
    · simp [mapGet, hk] at h
      simp [hk, h]
    · simp [mapGet, hk] at h
      exact List.mem_cons_of_mem _ (ih h)

theorem mem_mapSet {α : Type} (m : List (String × α)) (k : String) (v : α)
    (q : String × α) (h : q ∈ mapSet m k v) : q = (k, v) ∨ q ∈ m := by
  induction m with
  | nil => simpa [mapSet] using h
  | cons p t ih =>
    obtain ⟨k₀, u⟩ := p
    by_cases hk : k = k₀
    · simp [mapSet, hk] at h
      rcases h with h | h
      · left; simpa [hk] using h
      · right; exact List.mem_cons_of_mem _ h
    · simp [mapSet, hk] at h
      rcases h with h | h
      · right; simp [h]
      · rcases ih h with h | h
        · left; exact h
        · right; exact List.mem_cons_of_mem _ h

theorem mapKeys_mapSet_of_get_some {α : Type} (m : List (String × α))
    (k : String) (v : α) (h : ∃ w, mapGet m k = some w) :
    mapKeys (mapSet m k v) = mapKeys m := by
  induction m with
  | nil => simp [mapGet] at h
  | cons p t ih =>
    obtain ⟨k₀, u⟩ := p
    by_cases hk : k = k₀
    · simp [mapSet, hk, mapKeys]
    · simp [mapGet, hk] at h
      simpa [mapSet, hk, mapKeys] using ih h

theorem mapKeys_mapSet_of_get_none {α : Type} (m : List (String × α))
    (k : String) (v : α) (h : mapGet m k = none) :
    mapKeys (mapSet m k v) = mapKeys m ++ [k] := by
  induction m with
  | nil => simp [mapSet, mapKeys]
  | cons p t ih =>
    obtain ⟨k₀, u⟩ := p
    by_cases hk : k = k₀
    · simp [mapGet, hk] at h
    · simp [mapGet, hk] at h
      simpa [mapSet, hk, mapKeys] using ih h

theorem mapGet_eq_none_iff {α : Type} (m : List (String × α)) (k : String) :
    mapGet m k = none ↔ k ∉ mapKeys m := by
  induction m with
  | nil => simp [mapGet, mapKeys]
  | cons p t ih =>
    obtain ⟨k₀, u⟩ := p
    by_cases hk : k = k₀
    · simp [mapGet, hk, mapKeys]
    · simp [mapGet, hk, mapKeys, ih]

-- ── Shared concrete sample data ───────────────────────────────

/-- Sample workspace contract `contract-a`, declaring `contract-b`. -/
def cA : ContractMetadata :=
  { contractName := "contract-a", cargoTomlPath := "/w/a/Cargo.toml",
    contractDir := "/w/a",
    dependencies := [("contract-b", { workspace := some true })] }

/-- Sample workspace contract `contract-b`, declaring `contract-c`. -/
def cB : ContractMetadata :=
  { contractName := "contract-b", cargoTomlPath := "/w/b/Cargo.toml",
    contractDir := "/w/b",
    dependencies := [("contract-c", { workspace := some true })] }

/-- Sample workspace contract `contract-c`, declaring nothing. -/
def cC : ContractMetadata :=
  { contractName := "contract-c", cargoTomlPath := "/w/c/Cargo.toml",
    contractDir := "/w/c" }

/-- Resolver edge `contract-a → contract-b` at manifest-path granularity. -/
def edgeAB : DependencyEdge :=
  { «from» := "/w/a/Cargo.toml", «to» := "/w/b/Cargo.toml",
    reason := "dependency", dependencyName := "contract-b" }

/-- Resolver edge `contract-b → contract-c`. -/
def edgeBC : DependencyEdge :=
  { «from» := "/w/b/Cargo.toml", «to» := "/w/c/Cargo.toml",
    reason := "dependency", dependencyName := "contract-c" }

/-- Resolver edge `contract-b → contract-a`, closing a two-cycle. -/
def edgeBA : DependencyEdge :=
  { «from» := "/w/b/Cargo.toml", «to» := "/w/a/Cargo.toml",
    reason := "dependency", dependencyName := "contract-a" }

/-- Resolver output for the acyclic chain `a → b → c`. -/
def resChain : DependencyResolutionResult :=
  { edges := [edgeAB, edgeBC], cycles := [],
    order := ["contract-c", "contract-b", "contract-a"],
    levels := [["contract-c"], ["contract-b"], ["contract-a"]] }

/-- Resolver output for the two-cycle `a → b → a`, reporting one cycle. -/
def resCyc : DependencyResolutionResult :=
  { edges := [edgeAB, edgeBA],
    cycles := [["contract-a", "contract-b", "contract-a"]],
    order := ["contract-a", "contract-b"],
    levels := [["contract-a", "contract-b"]] }

/-- Filesystem where every call fails; the scanner tolerates it. -/
def noFs : FileSystem :=
  { readdir := fun _ => .error "ENOENT", readFile := fun _ => .error "ENOENT" }

/-- Sample import statement of `contract-a` naming `contract-b` with
different letter case, as the scanner could produce. -/
def impAB : ImportDependency :=
  { sourceContract := "Contract-A", importedModule := "CONTRACT-B",
    importType := .use, sourceFile := "/w/a/src/lib.rs", lineNumber := 1,
    statement := "use contract_b;" }

/-- Graph the service builds for the cyclic sample workspace. -/
def cycGraph : DependencyGraph :=
  buildGraphCore resCyc noFs [cA, cB]
    (resolveDetectionOptions { detectImports := some false })

/-- Graph the service builds for the chain sample workspace. -/
def chainGraph : DependencyGraph :=
  buildGraphCore resChain noFs [cA, cB, cC]
    (resolveDetectionOptions { detectImports := some false })

-- ── C4: cache freshness ───────────────────────────────────────

/-- C4. Cache freshness: a build stamped at `now` leaves a state whose
`getCachedGraph`, read at `now'`, returns the very graph the build produced
while `now' - now ≤ maxAge` and `null` once the age exceeds `maxAge`;
`getCachedGraph` returns `null` on the initial state (no build yet) and on
any state just invalidated. -/
theorem cache_freshness
    (resolve : List ContractMetadata → Bool → Except String DependencyResolutionResult)
    (fs : FileSystem) (contracts : List ContractMetadata)
    (options : DependencyDetectionOptions) (now : Int)
    (graph : DependencyGraph) (st' : DetectionState)
    (h : buildDependencyGraph resolve fs contracts options now = .ok (graph, st'))
    (now' maxAge : Int) :
    (now' - now ≤ maxAge → getCachedGraph st' now' maxAge = some graph) ∧
    (maxAge < now' - now → getCachedGraph st' now' maxAge = none) ∧
    (∀ st : DetectionState, getCachedGraph (invalidateCache st) now' maxAge = none) ∧
    getCachedGraph DetectionState.initial now' maxAge = none := by
  have hst : st'.cachedGraph = some graph ∧ st'.lastScanTime = now := by
    rcases hres : resolve contracts
        (resolveDetectionOptions options).includeDevDependencies with e | r
    · simp only [buildDependencyGraph, hres] at h
      exact absurd h (by simp)
    · simp only [buildDependencyGraph, hres, Except.ok.injEq,
        Prod.mk.injEq] at h
      rw [← h.2, ← h.1]
      exact ⟨rfl, rfl⟩
  refine ⟨fun hfresh => ?_, fun hstale => ?_, fun st => ?_, ?_⟩
  · simp [getCachedGraph, hst.1, hst.2]
    omega
  · simp [getCachedGraph, hst.1, hst.2]
    omega
  · simp [getCachedGraph, invalidateCache]
  · simp [getCachedGraph, DetectionState.initial]

/-- C4 witness: a concrete build at instant 1000, read at instant 2000
inside the window and at 70000 outside it. -/
theorem cache_freshness_witness :
    (2000 - 1000 ≤ (60000 : Int)) ∧ (60000 : Int) < 70000 - 1000 ∧
    (∃ st', buildDependencyGraph (fun _ _ => .ok resChain) noFs [cA, cB, cC]
        { detectImports := some false } 1000 = .ok (chainGraph, st') ∧
      getCachedGraph st' 2000 60000 = some chainGraph ∧
      getCachedGraph st' 70000 60000 = none) := by
  refine ⟨by norm_num, by norm_num, ⟨_, rfl, ?_, ?_⟩⟩
  · exact (cache_freshness (fun _ _ => .ok resChain) noFs [cA, cB, cC]
      { detectImports := some false } 1000 chainGraph _ rfl 2000 60000).1
      (by norm_num)
  · exact (cache_freshness (fun _ _ => .ok resChain) noFs [cA, cB, cC]
      { detectImports := some false } 1000 chainGraph _ rfl 70000 60000).2.1
      (by norm_num)

-- ── C10: empty-workspace refresh ──────────────────────────────

/-- C10. When the scan reports zero contracts, `refresh` returns
successfully (`.ok`), publishes no event (`none`), leaves the pending set
and the running flag untouched — yet the cache was already invalidated at
the top of `refresh`, so a subsequent `getCachedGraph` is `null` although
no new graph was published. -/
theorem empty_workspace_refresh (st : WatcherState)
    (resolve : List ContractMetadata → Bool → Except String DependencyResolutionResult)
    (fs : FileSystem) (changeType : ChangeType) (now now' maxAge : Int) :
    refresh st (.ok []) resolve fs changeType now =
      ({ st with detection := invalidateCache st.detection }, .ok none) ∧
    (refresh st (.ok []) resolve fs changeType now).1.pendingChanges =
      st.pendingChanges ∧
    (refresh st (.ok []) resolve fs changeType now).1.isRunning =
      st.isRunning ∧
    getCachedGraph (refresh st (.ok []) resolve fs changeType now).1.detection
      now' maxAge = none := by
  refine ⟨by simp [refresh], ?_, ?_, ?_⟩ <;>
    simp [refresh, invalidateCache, getCachedGraph]

-- ── C7: unknown-name queries ──────────────────────────────────

/-- C7. Total empty queries on unknown names: when no node of the graph
carries the queried name, both `getContractDependencies` and
`getContractDependents` return the empty direct and transitive sets (and,
being total functions, never throw). -/
theorem unknown_name_queries (graph : DependencyGraph) (contractName : String)
    (h : ∀ p ∈ graph.nodes, (Prod.snd p).name ≠ contractName) :
    getContractDependencies graph contractName = ([], []) ∧
    getContractDependents graph contractName = ([], []) := by
  have hfind :
      (graph.nodes.map Prod.snd).find? (fun n => n.name = contractName) = none := by
    rw [List.find?_eq_none]
    intro n hn
    simp only [List.mem_map] at hn
    obtain ⟨p, hp, rfl⟩ := hn
    simpa using h p hp
  constructor
  · simp [getContractDependencies, hfind]
  · simp [getContractDependents, hfind]

/-- C7 witness: the chain graph queried with a name it does not contain. -/
theorem unknown_name_queries_witness :
    getContractDependencies chainGraph "no-such-contract" = ([], []) ∧
    getContractDependents chainGraph "no-such-contract" = ([], []) :=
  unknown_name_queries chainGraph "no-such-contract" (by decide)

-- ── C2: cycle count in statistics ─────────────────────────────

/-- C2 (code bug witness). On the cyclic sample workspace the resolver
supplies one cycle and the assembled graph carries it, yet the statistics
field `circularDependencies` stays at the literal `0` that
`calculateStatistics` stores behind the comment saying the caller will set
it — the caller never does. -/
theorem circular_statistics_stay_zero :
    ∃ st', buildDependencyGraph (fun _ _ => .ok resCyc) noFs [cA, cB]
        { detectImports := some false } 0 = .ok (cycGraph, st') ∧
      cycGraph.cycles.length = 1 ∧
      cycGraph.statistics.circularDependencies = 0 ∧
      cycGraph.statistics.circularDependencies ≠ cycGraph.cycles.length := by
  exact ⟨_, rfl, by decide, by decide, by decide⟩

-- ── C1: failed debounced refresh and the cache ────────────────

/-- Statistics of the empty graph, used by concrete sample states. -/
def emptyStatistics : DependencyGraphStatistics :=
  { totalContracts := 0, totalDependencies := 0, externalDependencies := 0,
    circularDependencies := 0, maxDepth := 0,
    avgDependenciesPerContract := 0, leafContracts := 0, rootContracts := 0 }

/-- The empty dependency graph, used as a previously cached instance. -/
def emptyGraph : DependencyGraph :=
  { nodes := [], edges := [], imports := [], cycles := [],
    deploymentOrder := [], deploymentLevels := [],
    externalDependencies := [], workspaceContracts := [],
    statistics := emptyStatistics }

/-- Watcher state holding a last good cached graph built at instant 1000,
with the watcher running. -/
def watcherStCached : WatcherState :=
  { detection := { cachedGraph := some emptyGraph, lastScanTime := 1000 },
    pendingChanges := ["/w/a/Cargo.toml"], isRunning := true,
    watchSourceFiles := true }

/-- C1 counterexample. A debounced refresh whose workspace scan throws at
instant 1500: the failure is swallowed, but `getCachedGraph` read well
inside the freshness window now returns `null`, not the previously cached
graph — `refresh` invalidated the cache before the scan ran. -/
theorem debounced_failure_loses_cache :
    watcherStCached.detection.cachedGraph = some emptyGraph ∧
    (1500 - watcherStCached.detection.lastScanTime ≤ (60000 : Int)) ∧
    getCachedGraph
      (debouncedRefresh watcherStCached (.error "EIO")
        (fun _ _ => .ok resCyc) noFs .modified 1500).detection
      1500 60000 = none ∧
    getCachedGraph
      (debouncedRefresh watcherStCached (.error "EIO")
        (fun _ _ => .ok resCyc) noFs .modified 1500).detection
      1500 60000 ≠ some emptyGraph := by
  refine ⟨rfl, by norm_num [watcherStCached], ?_, ?_⟩ <;>
    simp [debouncedRefresh, refresh, invalidateCache, getCachedGraph]

/-- C1 as amended. After a failed debounced refresh (the scan threw, or the
scan returned a non-empty workspace and the build threw), the failure is
swallowed: the watcher keeps its running flag and its pending-change set.
The cached graph, however, is not left intact — the cache was invalidated
at the start of `refresh`, so `getCachedGraph` returns `null` at every
later read. -/
theorem debounced_failure_swallowed (st : WatcherState)
    (scan : Except String (List ContractMetadata))
    (resolve : List ContractMetadata → Bool → Except String DependencyResolutionResult)
    (fs : FileSystem) (changeType : ChangeType) (now now' maxAge : Int)
    (g : DependencyGraph)
    (hcached : st.detection.cachedGraph = some g)
    (hfail : ∃ e, (refresh st scan resolve fs changeType now).2 = .error e) :
    (debouncedRefresh st scan resolve fs changeType now).pendingChanges =
      st.pendingChanges ∧
    (debouncedRefresh st scan resolve fs changeType now).isRunning =
      st.isRunning ∧
    (debouncedRefresh st scan resolve fs changeType now).detection.cachedGraph
      = none ∧
    getCachedGraph
      (debouncedRefresh st scan resolve fs changeType now).detection
      now' maxAge = none := by
  obtain ⟨e, he⟩ := hfail
  rcases scan with es | contracts
  · refine ⟨?_, ?_, ?_, ?_⟩ <;>
      simp [debouncedRefresh, refresh, invalidateCache, getCachedGraph]
  · by_cases hlen : contracts.length = 0
    · simp [refresh, hlen] at he
    · rcases hbuild : buildDependencyGraph resolve fs contracts
          { detectImports := some st.watchSourceFiles } now with eb | pr
      · refine ⟨?_, ?_, ?_, ?_⟩ <;>
          simp [debouncedRefresh, refresh, hlen, hbuild, invalidateCache,
            getCachedGraph]
      · simp [refresh, hlen, hbuild] at he

/-- C1 witness for the amended theorem: the concrete cached watcher state
and a scan failure at instant 1500. -/
theorem debounced_failure_swallowed_witness :
    watcherStCached.detection.cachedGraph = some emptyGraph ∧
    (∃ e, (refresh watcherStCached (.error "EIO") (fun _ _ => .ok resCyc)
        noFs .modified 1500).2 = .error e) ∧
    (debouncedRefresh watcherStCached (.error "EIO") (fun _ _ => .ok resCyc)
        noFs .modified 1500).pendingChanges =
      watcherStCached.pendingChanges ∧
    getCachedGraph
      (debouncedRefresh watcherStCached (.error "EIO")
        (fun _ _ => .ok resCyc) noFs .modified 1500).detection
      1500 60000 = none := by
  have hf : ∃ e, (refresh watcherStCached (.error "EIO")
      (fun _ _ => .ok resCyc) noFs .modified 1500).2 = .error e :=
    ⟨"EIO", rfl⟩
  have hmain := debounced_failure_swallowed watcherStCached (.error "EIO")
    (fun _ _ => .ok resCyc) noFs .modified 1500 1500 60000 emptyGraph rfl hf
  exact ⟨rfl, hf, hmain.1, hmain.2.2.2⟩

-- ── C3: merge idempotence ─────────────────────────────────────

theorem importPhase_append (byName : List (String × ContractMetadata))
    (m : List (String × EnhancedDependencyEdge))
    (l : List ImportDependency) (x : ImportDependency) :
    importPhase byName m (l ++ [x]) =
      importStep byName (importPhase byName m l) x := by
  simp [importPhase, List.foldl_append]

theorem length_buildEnhancedEdges (cargoEdges : List DependencyEdge)
    (imports : List ImportDependency) (contracts : List ContractMetadata) :
    (buildEnhancedEdges cargoEdges imports contracts).length =
      (importPhase (contractByName contracts) (cargoPhase cargoEdges contracts)
        imports).length := by
  simp [buildEnhancedEdges]

/-- C3. Merge idempotence. Take any contract list, resolver edges, already
processed imports and one further import whose source and target names both
resolve case-insensitively to workspace contracts. If the edge map already
holds an edge for that ordered pair, the new import adds no edge: the edge
count of `buildEnhancedEdges` is unchanged and the existing edge is updated
to `source = both` with the import appended to its supporting list. Absent
such an edge, exactly one new `source = import` edge is synthesized. -/
theorem merge_idempotence (contracts : List ContractMetadata)
    (cargoEdges : List DependencyEdge) (imports : List ImportDependency)
    (imp : ImportDependency) (src tgt : ContractMetadata)
    (hsrc : mapGet (contractByName contracts) (toLowerStr imp.sourceContract) =
      some src)
    (htgt : mapGet (contractByName contracts) (toLowerStr imp.importedModule) =
      some tgt) :
    (∀ e, mapGet (importPhase (contractByName contracts)
          (cargoPhase cargoEdges contracts) imports)
        (edgeKey src.cargoTomlPath tgt.cargoTomlPath) = some e →
      (buildEnhancedEdges cargoEdges (imports ++ [imp]) contracts).length =
        (buildEnhancedEdges cargoEdges imports contracts).length ∧
      mapGet (importPhase (contractByName contracts)
          (cargoPhase cargoEdges contracts) (imports ++ [imp]))
        (edgeKey src.cargoTomlPath tgt.cargoTomlPath) =
        some { e with source := .both,
                      imports := some (e.imports.getD [] ++ [imp]) }) ∧
    (mapGet (importPhase (contractByName contracts)
          (cargoPhase cargoEdges contracts) imports)
        (edgeKey src.cargoTomlPath tgt.cargoTomlPath) = none →
      (buildEnhancedEdges cargoEdges (imports ++ [imp]) contracts).length =
        (buildEnhancedEdges cargoEdges imports contracts).length + 1 ∧
      mapGet (importPhase (contractByName contracts)
          (cargoPhase cargoEdges contracts) (imports ++ [imp]))
        (edgeKey src.cargoTomlPath tgt.cargoTomlPath) =
        some { «from» := src.cargoTomlPath, «to» := tgt.cargoTomlPath,
               reason := "workspace", dependencyName := imp.importedModule,
               source := .«import», imports := some [imp],
               isExternal := false, cargoMetadata := none }) := by
  constructor
  · intro e he
    constructor
    · rw [length_buildEnhancedEdges, length_buildEnhancedEdges,
        importPhase_append]
      simp only [importStep, hsrc, htgt, he]
      exact length_mapSet_of_get_some _ _ _ ⟨e, he⟩
    · rw [importPhase_append]
      simp only [importStep, hsrc, htgt, he]
      exact mapGet_mapSet_self _ _ _
  · intro he
    constructor
    · rw [length_buildEnhancedEdges, length_buildEnhancedEdges,
        importPhase_append]
      simp only [importStep, hsrc, htgt, he]
      exact length_mapSet_of_get_none _ _ _ he
    · rw [importPhase_append]
      simp only [importStep, hsrc, htgt, he]
      exact mapGet_mapSet_self _ _ _

/-- Enhanced edge the cargo phase produces for `edgeAB` in the sample
two-contract workspace. -/
def cargoEdgeABEnhanced : EnhancedDependencyEdge :=
  { «from» := "/w/a/Cargo.toml", «to» := "/w/b/Cargo.toml",
    reason := "dependency", dependencyName := "contract-b",
    source := .cargo, imports := none, isExternal := false,
    cargoMetadata := some { version := none, path := none,
                            workspace := some true } }

/-- C3 witness: the sample import confirming the declared edge between
`contract-a` and `contract-b` leaves the edge count at one and upgrades the
edge to `source = both` carrying the import. -/
theorem merge_idempotence_witness :
    mapGet (importPhase (contractByName [cA, cB]) (cargoPhase [edgeAB] [cA, cB])
        []) (edgeKey cA.cargoTomlPath cB.cargoTomlPath) =
      some cargoEdgeABEnhanced ∧
    (buildEnhancedEdges [edgeAB] ([] ++ [impAB]) [cA, cB]).length =
      (buildEnhancedEdges [edgeAB] [] [cA, cB]).length ∧
    mapGet (importPhase (contractByName [cA, cB]) (cargoPhase [edgeAB] [cA, cB])
        ([] ++ [impAB])) (edgeKey cA.cargoTomlPath cB.cargoTomlPath) =
      some { cargoEdgeABEnhanced with
             source := .both,
             imports := some (cargoEdgeABEnhanced.imports.getD [] ++ [impAB]) } := by
  have h := (merge_idempotence [cA, cB] [edgeAB] [] impAB cA cB (by decide)
    (by decide)).1 cargoEdgeABEnhanced (by decide)
  exact ⟨by decide, h.1, h.2⟩

-- ── Depth computation: shape preservation ─────────────────────

/-- A node with its depth field reset, for stating that the depth pass
changes nothing else. -/
def eraseDepth (n : DependencyNode) : DependencyNode :=
  { n with depth := 0 }

/-- A node map with every depth reset. -/
def shape (m : NodeMap) : NodeMap :=
  m.map (fun p => (p.1, eraseDepth p.2))

theorem mapGet_shape (m : NodeMap) (k : String) :
    mapGet (shape m) k = (mapGet m k).map eraseDepth := by
  induction m with
  | nil => simp [shape, mapGet]
  | cons p t ih =>
    obtain ⟨k₀, u⟩ := p
    by_cases hk : k = k₀
    · simp [shape, mapGet, hk]
    · simpa [shape, mapGet, hk] using ih

theorem shape_mapSet (m : NodeMap) (k : String) (v : DependencyNode) :
    shape (mapSet m k v) = mapSet (shape m) k (eraseDepth v) := by
  induction m with
  | nil => simp [shape, mapSet]
  | cons p t ih =>
    obtain ⟨k₀, u⟩ := p
    by_cases hk : k = k₀
    · simp [shape, mapSet, hk]
    · simpa [shape, mapSet, hk] using ih

theorem mapSet_get_self {α : Type} (m : List (String × α)) (k : String)
    (v : α) (h : mapGet m k = some v) : mapSet m k v = m := by
  induction m with
  | nil => simp [mapGet] at h
  | cons p t ih =>
    obtain ⟨k₀, u⟩ := p
    by_cases hk : k = k₀
    · simp [mapGet, hk] at h
      simp [mapSet, hk, h]
    · simp [mapGet, hk] at h
      simp [mapSet, hk, ih h]

theorem mapKeys_shape (m : NodeMap) : mapKeys (shape m) = mapKeys m := by
  simp [mapKeys, shape]

/-- Write-back of a depth at a key already present does not change the
shape. -/
theorem shape_mapSet_depth (m : NodeMap) (k : String)
    (node : DependencyNode) (d : Nat) (h : mapGet (shape m) k = some (eraseDepth node)) :
    shape (mapSet m k { node with depth := d }) = shape m := by
  rw [shape_mapSet]
  have : eraseDepth { node with depth := d } = eraseDepth node := rfl
  rw [this]
  exact mapSet_get_self _ _ _ h

/-- Named fold step of the depth worker, for readable equations. -/
def depthFoldStep (fuel : Nat) (acc : NodeMap × List String × Nat)
    (dep : String) : NodeMap × List String × Nat :=
  let r2 := calculateDepthGo fuel acc.1 acc.2.1 dep
  (r2.1, r2.2.1, max acc.2.2 r2.2.2)

/-- Result of the body of the depth worker once the dependency fold ran:
write the computed depth back and return it. -/
def depthWriteBack (r : NodeMap × List String × Nat) (name : String)
    (node : DependencyNode) : NodeMap × List String × Nat :=
  (mapSet r.1 name { (mapGet r.1 name).getD node with depth := r.2.2 + 1 },
    r.2.1, r.2.2 + 1)

/-- Unfolding equation of the depth worker at positive fuel. -/
theorem calculateDepthGo_succ (f : Nat) (nodes : NodeMap)
    (visited : List String) (name : String) :
    calculateDepthGo (f + 1) nodes visited name =
      if name ∈ visited then
        (nodes, visited, ((mapGet nodes name).map DependencyNode.depth).getD 0)
      else
        match mapGet nodes name with
        | none => (nodes, name :: visited, 0)
        | some node =>
          if node.dependencies = [] then
            (mapSet nodes name { node with depth := 0 }, name :: visited, 0)
          else
            depthWriteBack
              (node.dependencies.foldl (depthFoldStep f)
                (nodes, name :: visited, 0)) name node := rfl

/-- The depth worker never changes the shape of the node map: keys, order,
adjacency lists, counts and every non-depth field survive. -/
theorem calculateDepthGo_shape (fuel : Nat) :
    ∀ (nodes : NodeMap) (visited : List String) (name : String),
      shape (calculateDepthGo fuel nodes visited name).1 = shape nodes := by
  induction fuel with
  | zero => intro nodes visited name; simp [calculateDepthGo]
  | succ f ih =>
    intro nodes visited name
    rw [calculateDepthGo_succ]
    by_cases hvis : name ∈ visited
    · simp [hvis]
    · rw [if_neg hvis]
      rcases hget : mapGet nodes name with _ | node
      · simp
      · dsimp only
        by_cases hdeps : node.dependencies = []
        · have hsh : mapGet (shape nodes) name = some (eraseDepth node) := by
            rw [mapGet_shape, hget]; rfl
          rw [if_pos hdeps]
          exact shape_mapSet_depth nodes name node 0 hsh
        · rw [if_neg hdeps]
          have hfold :
              ∀ (l : List String) (acc : NodeMap × List String × Nat),
                shape (l.foldl (depthFoldStep f) acc).1 = shape acc.1 := by
            intro l
            induction l with
            | nil => intro acc; rfl
            | cons d t iht =>
              intro acc
              rw [List.foldl_cons, iht]
              exact ih acc.1 acc.2.1 d
          have h1 : shape (node.dependencies.foldl (depthFoldStep f)
              (nodes, name :: visited, 0)).1 = shape nodes :=
            hfold node.dependencies (nodes, name :: visited, 0)
          have h2 : mapGet (shape (node.dependencies.foldl (depthFoldStep f)
              (nodes, name :: visited, 0)).1) name = some (eraseDepth node) := by
            rw [h1, mapGet_shape, hget]; rfl
          rw [mapGet_shape] at h2
          rcases hw : mapGet (node.dependencies.foldl (depthFoldStep f)
              (nodes, name :: visited, 0)).1 name with _ | w
          · rw [hw] at h2; exact absurd h2 (by simp)
          · rw [hw] at h2
            simp at h2
            have h3 : mapGet (shape (node.dependencies.foldl (depthFoldStep f)
                (nodes, name :: visited, 0)).1) name = some (eraseDepth w) := by
              rw [mapGet_shape, hw]; rfl
            rw [depthWriteBack]
            simp only [hw, Option.getD_some]
            rw [shape_mapSet_depth _ _ _ _ h3]
            exact h1


-- ── C9: edge and adjacency uniqueness ─────────────────────────

/-- Invariant of the edge map: every key is the `from|to` key of its own
value and keys occur once. -/
def EdgeMapInv (m : List (String × EnhancedDependencyEdge)) : Prop :=
  (∀ p ∈ m, p.1 = edgeKey p.2.«from» p.2.«to») ∧ (mapKeys m).Nodup

theorem nodupKeys_mapSet {α : Type} (m : List (String × α)) (k : String)
    (v : α) (h : (mapKeys m).Nodup) : (mapKeys (mapSet m k v)).Nodup := by
  rcases hg : mapGet m k with _ | w
  · rw [mapKeys_mapSet_of_get_none _ _ _ hg]
    have hk : k ∉ mapKeys m := (mapGet_eq_none_iff _ _).mp hg
    simp [List.nodup_append, h, hk]
  · rwa [mapKeys_mapSet_of_get_some _ _ _ ⟨w, hg⟩]

theorem edgeMapInv_mapSet (m : List (String × EnhancedDependencyEdge))
    (k : String) (v : EnhancedDependencyEdge) (h : EdgeMapInv m)
    (hk : k = edgeKey v.«from» v.«to») : EdgeMapInv (mapSet m k v) := by
  constructor
  · intro p hp
    rcases mem_mapSet _ _ _ _ hp with he | hm
    · rw [he]; exact hk
    · exact h.1 p hm
  · exact nodupKeys_mapSet _ _ _ h.2

theorem edgeMapInv_cargoStep (byPath : List (String × ContractMetadata))
    (m : List (String × EnhancedDependencyEdge)) (edge : DependencyEdge)
    (h : EdgeMapInv m) : EdgeMapInv (cargoStep byPath m edge) :=
  edgeMapInv_mapSet _ _ _ h rfl

theorem edgeMapInv_importStep (byName : List (String × ContractMetadata))
    (m : List (String × EnhancedDependencyEdge)) (imp : ImportDependency)
    (h : EdgeMapInv m) : EdgeMapInv (importStep byName m imp) := by
  unfold importStep
  rcases mapGet byName (toLowerStr imp.sourceContract) with _ | src
  · exact h
  · rcases mapGet byName (toLowerStr imp.importedModule) with _ | tgt
    · exact h
    · dsimp only
      rcases hg : mapGet m (edgeKey src.cargoTomlPath tgt.cargoTomlPath)
        with _ | existing
      · exact edgeMapInv_mapSet _ _ _ h rfl
      · refine edgeMapInv_mapSet _ _ _ h ?_
        exact h.1 _ (mem_of_mapGet_eq_some _ _ _ hg)

theorem edgeMapInv_cargoPhase (cargoEdges : List DependencyEdge)
    (contracts : List ContractMetadata) :
    EdgeMapInv (cargoPhase cargoEdges contracts) := by
  have hgen : ∀ (l : List DependencyEdge)
      (m : List (String × EnhancedDependencyEdge)), EdgeMapInv m →
      EdgeMapInv (l.foldl (cargoStep (contractByPath contracts)) m) := by
    intro l
    induction l with
    | nil => intro m hm; exact hm
    | cons e t ih =>
      intro m hm
      exact ih _ (edgeMapInv_cargoStep _ _ _ hm)
  exact hgen cargoEdges [] ⟨by simp, by simp [mapKeys]⟩

theorem edgeMapInv_importPhase (byName : List (String × ContractMetadata))
    (m : List (String × EnhancedDependencyEdge))
    (imports : List ImportDependency) (h : EdgeMapInv m) :
    EdgeMapInv (importPhase byName m imports) := by
  induction imports generalizing m with
  | nil => exact h
  | cons i t ih =>
    rw [importPhase, List.foldl_cons]
    exact ih _ (edgeMapInv_importStep _ _ _ h)

/-- At most one edge per ordered pair in the value list of any edge map
satisfying the invariant. -/
theorem pairwise_of_edgeMapInv (m : List (String × EnhancedDependencyEdge))
    (h : EdgeMapInv m) :
    (m.map Prod.snd).Pairwise
      (fun e₁ e₂ => ¬(e₁.«from» = e₂.«from» ∧ e₁.«to» = e₂.«to»)) := by
  rw [List.pairwise_map]
  have hkeys : m.Pairwise (fun p q => p.1 ≠ q.1) :=
    List.pairwise_map.mp h.2
  refine List.Pairwise.imp_of_mem ?_ hkeys
  intro p q hp hq hne hpq
  exact hne (by rw [h.1 p hp, h.1 q hq, hpq.1, hpq.2])

/-- Invariant of a node map: duplicate-free adjacency lists with counts in
lockstep. -/
def NodeListInv (m : NodeMap) : Prop :=
  ∀ p ∈ m, p.2.dependencies.Nodup ∧ p.2.dependents.Nodup ∧
    p.2.dependencyCount = p.2.dependencies.length ∧
    p.2.dependentCount = p.2.dependents.length

theorem nodeListInv_mapSet (m : NodeMap) (k : String) (v : DependencyNode)
    (h : NodeListInv m) (hv : v.dependencies.Nodup ∧ v.dependents.Nodup ∧
      v.dependencyCount = v.dependencies.length ∧
      v.dependentCount = v.dependents.length) :
    NodeListInv (mapSet m k v) := by
  intro p hp
  rcases mem_mapSet _ _ _ _ hp with he | hm
  · rw [he]; exact hv
  · exact h p hm

theorem nodeListInv_init (contracts : List ContractMetadata) :
    NodeListInv (contracts.foldl
      (fun m c => mapSet m c.contractName (initNode c)) []) := by
  have hgen : ∀ (l : List ContractMetadata) (m : NodeMap), NodeListInv m →
      NodeListInv (l.foldl (fun m c => mapSet m c.contractName (initNode c)) m) := by
    intro l
    induction l with
    | nil => intro m hm; exact hm
    | cons c t ih =>
      intro m hm
      exact ih _ (nodeListInv_mapSet _ _ _ hm (by simp [initNode]))
  exact hgen contracts [] (by intro p hp; simp at hp)

theorem nodeListInv_addEdge (contracts : List ContractMetadata) (m : NodeMap)
    (edge : EnhancedDependencyEdge) (h : NodeListInv m) :
    NodeListInv (addEdgeToNodes contracts m edge) := by
  unfold addEdgeToNodes
  split
  · rename_i fc tc hfc htc
    split
    · next fromNode toNode hf ht =>
      dsimp only
      have hfrom := h _ (mem_of_mapGet_eq_some _ _ _ hf)
      dsimp only at hfrom
      have hm1 : NodeListInv (if toNode.name ∈ fromNode.dependencies then m
          else mapSet m fc.contractName { fromNode with
              dependencies := fromNode.dependencies ++ [toNode.name],
              dependencyCount := fromNode.dependencyCount + 1 }) := by
        split
        · exact h
        · refine nodeListInv_mapSet _ _ _ h ?_
          refine ⟨?_, hfrom.2.1, ?_, hfrom.2.2.2⟩
          · rw [List.nodup_append]
            refine ⟨hfrom.1, by simp, ?_⟩
            simp only [List.disjoint_singleton]
            assumption
          · simp [hfrom.2.2.1]
      split
      · next toNode1 ht1 =>
        have hto := hm1 _ (mem_of_mapGet_eq_some _ _ _ ht1)
        dsimp only at hto
        split
        · exact hm1
        · refine nodeListInv_mapSet _ _ _ hm1 ?_
          refine ⟨hto.1, ?_, hto.2.2.1, ?_⟩
          · rw [List.nodup_append]
            refine ⟨hto.2.1, by simp, ?_⟩
            simp only [List.disjoint_singleton]
            assumption
          · simp [hto.2.2.2]
      · exact hm1
    · exact h
  · exact h

theorem nodeListInv_of_shape_eq (m m' : NodeMap) (h : shape m' = shape m)
    (hm : NodeListInv m) : NodeListInv m' := by
  intro p hp
  have hmem : (p.1, eraseDepth p.2) ∈ shape m := by
    rw [← h]
    exact List.mem_map_of_mem _ hp
  simp only [shape, List.mem_map] at hmem
  obtain ⟨q, hq, hqe⟩ := hmem
  have he : eraseDepth q.2 = eraseDepth p.2 := congrArg Prod.snd hqe
  have hq' := hm q hq
  have hdeps : q.2.dependencies = p.2.dependencies := by
    have h2 := congrArg DependencyNode.dependencies he
    exact h2
  have hdents : q.2.dependents = p.2.dependents := by
    have h2 := congrArg DependencyNode.dependents he
    exact h2
  have hdc : q.2.dependencyCount = p.2.dependencyCount := by
    have h2 := congrArg DependencyNode.dependencyCount he
    exact h2
  have hdtc : q.2.dependentCount = p.2.dependentCount := by
    have h2 := congrArg DependencyNode.dependentCount he
    exact h2
  rw [← hdeps, ← hdents, ← hdc, ← hdtc]
  exact hq'

theorem shape_calculateDepthsWith (fuel : Nat) (m : NodeMap) :
    shape (calculateDepthsWith fuel m) = shape m := by
  unfold calculateDepthsWith
  have hgen : ∀ (l : List String) (acc : NodeMap × List String),
      shape (l.foldl (fun acc name =>
        let r := calculateDepthGo fuel acc.1 acc.2 name
        (r.1, r.2.1)) acc).1 = shape acc.1 := by
    intro l
    induction l with
    | nil => intro acc; rfl
    | cons a t ih =>
      intro acc
      rw [List.foldl_cons, ih]
      exact calculateDepthGo_shape fuel acc.1 acc.2 a
  exact hgen (mapKeys m) (m, [])

theorem nodeListInv_buildNodes (contracts : List ContractMetadata)
    (edges : List EnhancedDependencyEdge) :
    NodeListInv (buildNodes contracts edges) := by
  unfold buildNodes calculateDepths
  have hadj : ∀ (l : List EnhancedDependencyEdge) (m : NodeMap),
      NodeListInv m → NodeListInv (l.foldl (addEdgeToNodes contracts) m) := by
    intro l
    induction l with
    | nil => intro m hm; exact hm
    | cons e t ih =>
      intro m hm
      exact ih _ (nodeListInv_addEdge _ _ _ hm)
  have h0 := hadj edges _ (nodeListInv_init contracts)
  exact nodeListInv_of_shape_eq _ _ (shape_calculateDepthsWith _ _) h0

/-- C9. Edge and adjacency uniqueness: every graph `buildDependencyGraph`
returns has at most one edge per ordered `(from, to)` pair, and every node
carries duplicate-free dependency and dependent lists whose lengths the two
counters match exactly. -/
theorem edge_adjacency_uniqueness
    (resolve : List ContractMetadata → Bool → Except String DependencyResolutionResult)
    (fs : FileSystem) (contracts : List ContractMetadata)
    (options : DependencyDetectionOptions) (now : Int)
    (graph : DependencyGraph) (st' : DetectionState)
    (h : buildDependencyGraph resolve fs contracts options now = .ok (graph, st')) :
    graph.edges.Pairwise
      (fun e₁ e₂ => ¬(e₁.«from» = e₂.«from» ∧ e₁.«to» = e₂.«to»)) ∧
    ∀ p ∈ graph.nodes, p.2.dependencies.Nodup ∧ p.2.dependents.Nodup ∧
      p.2.dependencyCount = p.2.dependencies.length ∧
      p.2.dependentCount = p.2.dependents.length := by
  rcases hres : resolve contracts
      (resolveDetectionOptions options).includeDevDependencies with e | r
  · simp only [buildDependencyGraph, hres] at h
    exact absurd h (by simp)
  · simp only [buildDependencyGraph, hres, Except.ok.injEq,
      Prod.mk.injEq] at h
    rw [← h.1]
    constructor
    · rw [buildGraphCore]
      exact pairwise_of_edgeMapInv _
        (edgeMapInv_importPhase _ _ _ (edgeMapInv_cargoPhase _ _))
    · rw [buildGraphCore]
      exact nodeListInv_buildNodes _ _

/-- C9 witness: the chain sample graph. -/
theorem edge_adjacency_uniqueness_witness :
    chainGraph.edges.Pairwise
      (fun e₁ e₂ => ¬(e₁.«from» = e₂.«from» ∧ e₁.«to» = e₂.«to»)) ∧
    ∀ p ∈ chainGraph.nodes, p.2.dependencies.Nodup ∧ p.2.dependents.Nodup ∧
      p.2.dependencyCount = p.2.dependencies.length ∧
      p.2.dependentCount = p.2.dependents.length :=
  edge_adjacency_uniqueness (fun _ _ => .ok resChain) noFs [cA, cB, cC]
    { detectImports := some false } 0 chainGraph
    { cachedGraph := some chainGraph, lastScanTime := 0 } rfl

-- ── C6: termination of the depth computation ──────────────────

/-- Number of map keys not yet visited, the measure the visited marker
drives to zero. -/
def unvisitedCount (m : NodeMap) (v : List String) : Nat :=
  ((mapKeys m).filter (fun s => decide (s ∉ v))).length

theorem length_filter_le_filter (l : List String) (p q : String → Bool)
    (h : ∀ s, p s = true → q s = true) :
    (l.filter p).length ≤ (l.filter q).length := by
  induction l with
  | nil => simp
  | cons a t ih =>
    by_cases hp : p a = true
    · rw [List.filter_cons_of_pos hp, List.filter_cons_of_pos (h a hp)]
      simpa using ih
    · rw [List.filter_cons_of_neg (by simpa using hp)]
      by_cases hq : q a = true
      · rw [List.filter_cons_of_pos hq]
        exact le_trans ih (by simp)
      · rw [List.filter_cons_of_neg (by simpa using hq)]
        exact ih

theorem unvisitedCount_mono (m m' : NodeMap) (v v' : List String)
    (hk : mapKeys m' = mapKeys m) (hv : ∀ a ∈ v, a ∈ v') :
    unvisitedCount m' v' ≤ unvisitedCount m v := by
  unfold unvisitedCount
  rw [hk]
  refine length_filter_le_filter _ _ _ ?_
  intro s hs
  simp only [decide_eq_true_eq] at *
  intro hmem
  exact hs (hv _ hmem)

theorem unvisitedCount_cons_lt (m : NodeMap) (v : List String) (name : String)
    (hk : name ∈ mapKeys m) (hv : name ∉ v) :
    unvisitedCount m (name :: v) < unvisitedCount m v := by
  unfold unvisitedCount
  have hgen : ∀ (l : List String), name ∈ l →
      (l.filter (fun s => decide (s ∉ name :: v))).length <
        (l.filter (fun s => decide (s ∉ v))).length := by
    intro l
    induction l with
    | nil => intro hl; simp at hl
    | cons a t ih =>
      intro hl
      by_cases ha : a = name
      · subst ha
        rw [List.filter_cons_of_neg (by simp), List.filter_cons_of_pos
          (by simpa using hv)]
        have hle : (t.filter (fun s => decide (s ∉ a :: v))).length ≤
            (t.filter (fun s => decide (s ∉ v))).length := by
          refine length_filter_le_filter _ _ _ ?_
          intro s hs
          simp only [decide_eq_true_eq, List.mem_cons, not_or] at *
          exact hs.2
        simpa using Nat.lt_succ_of_le hle
      · have hnt : name ∈ t := by
          rcases List.mem_cons.mp hl with h1 | h1
          · exact absurd h1.symm ha
          · exact h1
        have hstep := ih hnt
        by_cases hav : a ∈ v
        · rw [List.filter_cons_of_neg (by simp [hav]),
            List.filter_cons_of_neg (by simp [hav])]
          exact hstep
        · rw [List.filter_cons_of_pos (by simp [hav, ha]),
            List.filter_cons_of_pos (by simpa using hav)]
          simpa using hstep
  exact hgen _ hk

theorem mapGet_mem_keys {α : Type} (m : List (String × α)) (k : String)
    (v : α) (h : mapGet m k = some v) : k ∈ mapKeys m := by
  have := mem_of_mapGet_eq_some _ _ _ h
  exact List.mem_map_of_mem Prod.fst this

theorem unvisitedCount_pos (m : NodeMap) (v : List String) (name : String)
    (hk : name ∈ mapKeys m) (hv : name ∉ v) : 0 < unvisitedCount m v := by
  unfold unvisitedCount
  have hmem : name ∈ (mapKeys m).filter (fun s => decide (s ∉ v)) := by
    rw [List.mem_filter]
    exact ⟨hk, by simpa using hv⟩
  refine List.length_pos.mpr ?_
  intro hnil
  rw [hnil] at hmem
  simp at hmem

theorem calculateDepthGo_keys (fuel : Nat) (nodes : NodeMap)
    (visited : List String) (name : String) :
    mapKeys (calculateDepthGo fuel nodes visited name).1 = mapKeys nodes := by
  have h := calculateDepthGo_shape fuel nodes visited name
  calc mapKeys (calculateDepthGo fuel nodes visited name).1
      = mapKeys (shape (calculateDepthGo fuel nodes visited name).1) :=
        (mapKeys_shape _).symm
    _ = mapKeys (shape nodes) := by rw [h]
    _ = mapKeys nodes := mapKeys_shape _

theorem calculateDepthGo_visited_subset (fuel : Nat) :
    ∀ (nodes : NodeMap) (visited : List String) (name : String),
      ∀ a ∈ visited, a ∈ (calculateDepthGo fuel nodes visited name).2.1 := by
  induction fuel with
  | zero => intro nodes visited name a ha; simpa [calculateDepthGo] using ha
  | succ f ih =>
    intro nodes visited name a ha
    rw [calculateDepthGo_succ]
    by_cases hvis : name ∈ visited
    · simpa [hvis] using ha
    · rw [if_neg hvis]
      rcases mapGet nodes name with _ | node
      · exact List.mem_cons_of_mem _ ha
      · dsimp only
        by_cases hdeps : node.dependencies = []
        · rw [if_pos hdeps]
          exact List.mem_cons_of_mem _ ha
        · rw [if_neg hdeps]
          have hfold : ∀ (l : List String) (acc : NodeMap × List String × Nat),
              ∀ b ∈ acc.2.1, b ∈ (l.foldl (depthFoldStep f) acc).2.1 := by
            intro l
            induction l with
            | nil => intro acc b hb; exact hb
            | cons d t iht =>
              intro acc b hb
              rw [List.foldl_cons]
              exact iht _ _ (ih acc.1 acc.2.1 d b hb)
          exact hfold node.dependencies (nodes, name :: visited, 0) a
            (List.mem_cons_of_mem _ ha)

theorem depthFoldStep_keys (fuel : Nat) (acc : NodeMap × List String × Nat)
    (dep : String) : mapKeys (depthFoldStep fuel acc dep).1 = mapKeys acc.1 :=
  calculateDepthGo_keys fuel acc.1 acc.2.1 dep

/-- Fuel beyond the number of unvisited keys does not change the result of
the depth worker: the visited marker, not the fuel, terminates the
recursion. -/
theorem calculateDepthGo_fuel_stable :
    ∀ (k f₁ f₂ : Nat) (nodes : NodeMap) (visited : List String)
      (name : String), unvisitedCount nodes visited ≤ k → k < f₁ → k < f₂ →
      calculateDepthGo f₁ nodes visited name =
        calculateDepthGo f₂ nodes visited name := by
  intro k
  induction k with
  | zero =>
    intro f₁ f₂ nodes visited name hμ h₁ h₂
    obtain ⟨a, rfl⟩ : ∃ a, f₁ = a + 1 := ⟨f₁ - 1, by omega⟩
    obtain ⟨b, rfl⟩ : ∃ b, f₂ = b + 1 := ⟨f₂ - 1, by omega⟩
    rw [calculateDepthGo_succ, calculateDepthGo_succ]
    by_cases hvis : name ∈ visited
    · rw [if_pos hvis, if_pos hvis]
    · rw [if_neg hvis, if_neg hvis]
      rcases hget : mapGet nodes name with _ | node
      · rfl
      · dsimp only
        by_cases hdeps : node.dependencies = []
        · rw [if_pos hdeps, if_pos hdeps]
        · exfalso
          have hk := mapGet_mem_keys _ _ _ hget
          have := unvisitedCount_pos nodes visited name hk hvis
          omega
  | succ k ih =>
    intro f₁ f₂ nodes visited name hμ h₁ h₂
    obtain ⟨a, rfl⟩ : ∃ a, f₁ = a + 1 := ⟨f₁ - 1, by omega⟩
    obtain ⟨b, rfl⟩ : ∃ b, f₂ = b + 1 := ⟨f₂ - 1, by omega⟩
    rw [calculateDepthGo_succ, calculateDepthGo_succ]
    by_cases hvis : name ∈ visited
    · rw [if_pos hvis, if_pos hvis]
    · rw [if_neg hvis, if_neg hvis]
      rcases hget : mapGet nodes name with _ | node
      · rfl
      · dsimp only
        by_cases hdeps : node.dependencies = []
        · rw [if_pos hdeps, if_pos hdeps]
        · rw [if_neg hdeps, if_neg hdeps]
          have hk := mapGet_mem_keys _ _ _ hget
          have hμ' : unvisitedCount nodes (name :: visited) ≤ k := by
            have := unvisitedCount_cons_lt nodes visited name hk hvis
            omega
          have hfold : ∀ (l : List String) (acc : NodeMap × List String × Nat),
              mapKeys acc.1 = mapKeys nodes →
              unvisitedCount acc.1 acc.2.1 ≤ k →
              l.foldl (depthFoldStep a) acc = l.foldl (depthFoldStep b) acc := by
            intro l
            induction l with
            | nil => intro acc _ _; rfl
            | cons d t iht =>
              intro acc hkeys hacc
              rw [List.foldl_cons, List.foldl_cons]
              have hstep : depthFoldStep a acc d = depthFoldStep b acc d := by
                unfold depthFoldStep
                rw [ih a b acc.1 acc.2.1 d hacc (by omega) (by omega)]
              rw [hstep]
              refine iht _ ?_ ?_
              · rw [depthFoldStep_keys, hkeys]
              · have hle : unvisitedCount (depthFoldStep b acc d).1
                    (depthFoldStep b acc d).2.1 ≤
                    unvisitedCount acc.1 acc.2.1 := by
                  refine unvisitedCount_mono _ _ _ _ ?_ ?_
                  · exact depthFoldStep_keys b acc d
                  · exact calculateDepthGo_visited_subset b acc.1 acc.2.1 d
                exact le_trans hle hacc
          rw [hfold node.dependencies (nodes, name :: visited, 0) rfl
            (by simpa using hμ')]

/-- C6. Depth computation terminates on every input, cycles included: once
the fuel reaches the node count the result of `calculateDepthsWith` no
longer depends on it, so `calculateDepths` (and with it
`buildDependencyGraph`) is well defined and never diverges — exactly the
guarantee the visited marker provides in the source. -/
theorem calculateDepths_terminates (nodes : NodeMap) (fuel : Nat)
    (h : nodes.length + 1 ≤ fuel) :
    calculateDepthsWith fuel nodes = calculateDepths nodes := by
  unfold calculateDepths calculateDepthsWith
  have hμ0 : unvisitedCount nodes [] ≤ nodes.length := by
    unfold unvisitedCount
    calc ((mapKeys nodes).filter (fun s => decide (s ∉ ([] : List String)))).length
        ≤ (mapKeys nodes).length := List.length_filter_le _ _
      _ = nodes.length := by simp [mapKeys]
  have hfold : ∀ (l : List String) (acc : NodeMap × List String),
      unvisitedCount acc.1 acc.2 ≤ nodes.length →
      l.foldl (fun acc name =>
        let r := calculateDepthGo fuel acc.1 acc.2 name
        (r.1, r.2.1)) acc =
      l.foldl (fun acc name =>
        let r := calculateDepthGo (nodes.length + 1) acc.1 acc.2 name
        (r.1, r.2.1)) acc := by
    intro l
    induction l with
    | nil => intro acc _; rfl
    | cons d t iht =>
      intro acc hacc
      rw [List.foldl_cons, List.foldl_cons]
      have hstep : calculateDepthGo fuel acc.1 acc.2 d =
          calculateDepthGo (nodes.length + 1) acc.1 acc.2 d :=
        calculateDepthGo_fuel_stable nodes.length fuel (nodes.length + 1)
          acc.1 acc.2 d hacc (by omega) (by omega)
      rw [hstep]
      refine iht _ ?_
      have hle : unvisitedCount
          (calculateDepthGo (nodes.length + 1) acc.1 acc.2 d).1
          (calculateDepthGo (nodes.length + 1) acc.1 acc.2 d).2.1 ≤
          unvisitedCount acc.1 acc.2 := by
        refine unvisitedCount_mono _ _ _ _ ?_ ?_
        · exact calculateDepthGo_keys _ _ _ _
        · exact calculateDepthGo_visited_subset _ acc.1 acc.2 d
      exact le_trans hle hacc
  rw [hfold (mapKeys nodes) (nodes, []) hμ0]

/-- Cyclic two-node map, the adversarial input for termination. -/
def cycNodesRaw : NodeMap :=
  [("contract-a",
    { name := "contract-a", cargoTomlPath := "/w/a/Cargo.toml",
      contractDir := "/w/a", dependencies := ["contract-b"],
      dependents := ["contract-b"], isExternal := false,
      dependencyCount := 1, dependentCount := 1, depth := 0 }),
   ("contract-b",
    { name := "contract-b", cargoTomlPath := "/w/b/Cargo.toml",
      contractDir := "/w/b", dependencies := ["contract-a"],
      dependents := ["contract-a"], isExternal := false,
      dependencyCount := 1, dependentCount := 1, depth := 0 })]

/-- C6 witness: on the cyclic two-node map, any fuel from three up yields
the canonical result. -/
theorem calculateDepths_terminates_witness :
    cycNodesRaw.length + 1 ≤ 10 ∧
    calculateDepthsWith 10 cycNodesRaw = calculateDepths cycNodesRaw :=
  ⟨by decide, calculateDepths_terminates cycNodesRaw 10 (by decide)⟩

-- ── C5: depth recurrence on acyclic input ─────────────────────

/-- Workspace-internal dependency step: node `a` lists `b` among its
dependencies. -/
def depEdge (m : NodeMap) (a b : String) : Prop :=
  ∃ n, mapGet m a = some n ∧ b ∈ n.dependencies

/-- Acyclicity of the dependency relation of a node map: no name reaches
itself through one or more dependency steps. -/
def AcyclicDeps (m : NodeMap) : Prop :=
  ∀ a, ¬ Relation.TransGen (depEdge m) a a

/-- Depth stored for a name, zero when the name is absent — exactly the
`?? 0` fallback of the source. -/
def depthOf (m : NodeMap) (a : String) : Nat :=
  ((mapGet m a).map DependencyNode.depth).getD 0

/-- Maximum of a list of naturals, `Math.max` folded from zero. -/
def maxList (l : List Nat) : Nat :=
  l.foldl max 0

/-- The depth recurrence holds at name `a` of map `m`. -/
def DepthCorrectAt (m : NodeMap) (a : String) : Prop :=
  ∀ n, mapGet m a = some n →
    n.depth = if n.dependencies = [] then 0
      else maxList (n.dependencies.map (depthOf m)) + 1

/-- Invariant of the processed set `D`: every processed name satisfies the
recurrence and its dependencies are processed too. -/
def DoneInv (m : NodeMap) (D : List String) : Prop :=
  ∀ a ∈ D, DepthCorrectAt m a ∧
    ∀ n, mapGet m a = some n → ∀ b ∈ n.dependencies, b ∈ D

theorem depEdge_of_shape_eq (m m' : NodeMap) (h : shape m' = shape m)
    (a b : String) : depEdge m' a b ↔ depEdge m a b := by
  have hget : (mapGet m' a).map eraseDepth = (mapGet m a).map eraseDepth := by
    rw [← mapGet_shape, ← mapGet_shape, h]
  constructor
  · rintro ⟨n', hn', hb⟩
    rcases hg : mapGet m a with _ | n
    · rw [hn', hg] at hget; exact absurd hget (by simp)
    · refine ⟨n, hg, ?_⟩
      rw [hn', hg] at hget
      simp at hget
      have hdeps : n'.dependencies = n.dependencies := by
        have h2 := congrArg DependencyNode.dependencies hget
        exact h2
      rwa [hdeps] at hb
  · rintro ⟨n, hn, hb⟩
    rcases hg : mapGet m' a with _ | n'
    · rw [hn, hg] at hget; exact absurd hget (by simp)
    · refine ⟨n', hg, ?_⟩
      rw [hn, hg] at hget
      simp at hget
      have hdeps : n'.dependencies = n.dependencies := by
        have h2 := congrArg DependencyNode.dependencies hget
        exact h2
      rwa [← hdeps] at hb

theorem reflTransGen_of_shape_eq (m m' : NodeMap) (h : shape m' = shape m)
    (a b : String) (hr : Relation.ReflTransGen (depEdge m') a b) :
    Relation.ReflTransGen (depEdge m) a b :=
  Relation.ReflTransGen.mono
    (fun x y hxy => (depEdge_of_shape_eq m m' h x y).mp hxy) hr

theorem acyclic_of_shape_eq (m m' : NodeMap) (h : shape m' = shape m)
    (hacyc : AcyclicDeps m) : AcyclicDeps m' := by
  intro a ha
  exact hacyc a (Relation.TransGen.mono
    (fun x y hxy => (depEdge_of_shape_eq m m' h x y).mp hxy) ha)

/-- Updating a key outside `D` preserves the processed-set invariant: the
dependencies of processed names are processed, so no lookup the recurrence
mentions changes. -/
theorem doneInv_update (m : NodeMap) (D : List String) (k : String)
    (v : DependencyNode) (h : DoneInv m D) (hk : k ∉ D) :
    DoneInv (mapSet m k v) D := by
  intro a ha
  have hne : a ≠ k := fun he => hk (he ▸ ha)
  obtain ⟨hca, hdeps⟩ := h a ha
  constructor
  · intro n hn
    rw [mapGet_mapSet_ne _ _ _ _ hne] at hn
    have hrec := hca n hn
    by_cases hd : n.dependencies = []
    · simpa [hd] using hrec
    · rw [if_neg hd] at hrec ⊢
      have hmap : n.dependencies.map (depthOf (mapSet m k v)) =
          n.dependencies.map (depthOf m) := by
        refine List.map_congr_left ?_
        intro b hb
        have hbD : b ∈ D := hdeps n hn b hb
        have hbne : b ≠ k := fun he => hk (he ▸ hbD)
        unfold depthOf
        rw [mapGet_mapSet_ne _ _ _ _ hbne]
      rw [hmap]
      exact hrec
  · intro n hn
    rw [mapGet_mapSet_ne _ _ _ _ hne] at hn
    exact hdeps n hn

theorem foldl_depthFoldStep_shape (f : Nat) (l : List String)
    (acc : NodeMap × List String × Nat) :
    shape (l.foldl (depthFoldStep f) acc).1 = shape acc.1 := by
  induction l generalizing acc with
  | nil => rfl
  | cons d t ih =>
    rw [List.foldl_cons, ih]
    exact calculateDepthGo_shape f acc.1 acc.2.1 d

/-- Post-condition of one depth-worker call: the processed set `D` grows to
a `D'` containing `name`, the visited set is partitioned into `D'` and the
untouched ancestors `A`, the processed-set invariant holds on the result
map, entries already visited are untouched, and the returned number is the
final stored depth of `name`. -/
abbrev GoPost (fuel : Nat) (m : NodeMap) (visited D A : List String)
    (name : String) : Prop :=
  ∃ D', D ⊆ D' ∧ name ∈ D' ∧
    (∀ x, x ∈ (calculateDepthGo fuel m visited name).2.1 ↔
      (x ∈ D' ∨ x ∈ A)) ∧
    DoneInv (calculateDepthGo fuel m visited name).1 D' ∧
    (∀ x ∈ A, x ∉ D') ∧
    (∀ x ∈ visited,
      mapGet (calculateDepthGo fuel m visited name).1 x = mapGet m x) ∧
    (calculateDepthGo fuel m visited name).2.2 =
      depthOf (calculateDepthGo fuel m visited name).1 name

theorem goPost_of_visited (f : Nat) (m : NodeMap) (visited D A : List String)
    (name : String) (hvis : name ∈ visited)
    (hpart : ∀ x, x ∈ visited ↔ (x ∈ D ∨ x ∈ A))
    (hdone : DoneInv m D)
    (hdisj : ∀ x ∈ A, x ∉ D)
    (hA : ∀ x ∈ A, ¬ Relation.ReflTransGen (depEdge m) name x) :
    GoPost (f + 1) m visited D A name := by
  have hres : calculateDepthGo (f + 1) m visited name =
      (m, visited, ((mapGet m name).map DependencyNode.depth).getD 0) := by
    rw [calculateDepthGo_succ, if_pos hvis]
  have hnD : name ∈ D := by
    rcases (hpart name).mp hvis with h | h
    · exact h
    · exact absurd Relation.ReflTransGen.refl (hA name h)
  refine ⟨D, fun x hx => hx, hnD, ?_, ?_, hdisj, ?_, ?_⟩
  · rw [hres]; exact hpart
  · rw [hres]; exact hdone
  · rw [hres]; exact fun x _ => rfl
  · rw [hres, depthOf]

theorem goPost_of_missing (f : Nat) (m : NodeMap) (visited D A : List String)
    (name : String) (hvis : name ∉ visited) (hget : mapGet m name = none)
    (hpart : ∀ x, x ∈ visited ↔ (x ∈ D ∨ x ∈ A))
    (hdone : DoneInv m D)
    (hdisj : ∀ x ∈ A, x ∉ D)
    (hA : ∀ x ∈ A, ¬ Relation.ReflTransGen (depEdge m) name x) :
    GoPost (f + 1) m visited D A name := by
  have hres : calculateDepthGo (f + 1) m visited name =
      (m, name :: visited, 0) := by
    rw [calculateDepthGo_succ, if_neg hvis, hget]
  refine ⟨name :: D, List.subset_cons_self _ _, List.mem_cons_self _ _,
    ?_, ?_, ?_, ?_, ?_⟩
  · rw [hres]
    intro x
    simp only [List.mem_cons, hpart x]
    tauto
  · rw [hres]
    intro a ha
    rcases List.mem_cons.mp ha with rfl | haD
    · exact ⟨fun n hn => absurd hn (by simp [hget]),
        fun n hn => absurd hn (by simp [hget])⟩
    · obtain ⟨hca, hdeps⟩ := hdone a haD
      exact ⟨hca, fun n hn b hb => List.mem_cons_of_mem _ (hdeps n hn b hb)⟩
  · intro x hx
    simp only [List.mem_cons, not_or]
    exact ⟨fun he => hA x hx (he ▸ Relation.ReflTransGen.refl), hdisj x hx⟩
  · rw [hres]
    exact fun x _ => rfl
  · rw [hres, depthOf, hget]; rfl

theorem goPost_of_no_deps (f : Nat) (m : NodeMap)
    (visited D A : List String) (name : String) (node : DependencyNode)
    (hvis : name ∉ visited) (hget : mapGet m name = some node)
    (hdeps : node.dependencies = [])
    (hpart : ∀ x, x ∈ visited ↔ (x ∈ D ∨ x ∈ A))
    (hdone : DoneInv m D)
    (hdisj : ∀ x ∈ A, x ∉ D)
    (hA : ∀ x ∈ A, ¬ Relation.ReflTransGen (depEdge m) name x) :
    GoPost (f + 1) m visited D A name := by
  have hres : calculateDepthGo (f + 1) m visited name =
      (mapSet m name { node with depth := 0 }, name :: visited, 0) := by
    rw [calculateDepthGo_succ, if_neg hvis, hget]
    dsimp only
    rw [if_pos hdeps]
  have hnD : name ∉ D := fun hin => hvis ((hpart name).mpr (Or.inl hin))
  refine ⟨name :: D, List.subset_cons_self _ _, List.mem_cons_self _ _,
    ?_, ?_, ?_, ?_, ?_⟩
  · rw [hres]
    intro x
    simp only [List.mem_cons, hpart x]
    tauto
  · rw [hres]
    intro a ha
    rcases List.mem_cons.mp ha with rfl | haD
    · constructor
      · intro n hn
        rw [mapGet_mapSet_self] at hn
        rw [← Option.some.inj hn]
        simp [hdeps]
      · intro n hn b hb
        rw [mapGet_mapSet_self] at hn
        rw [← Option.some.inj hn] at hb
        simp only at hb
        rw [hdeps] at hb
        simp at hb
    · obtain ⟨hca, hdepsa⟩ := doneInv_update m D name
        { node with depth := 0 } hdone hnD a haD
      exact ⟨hca, fun n hn b hb => List.mem_cons_of_mem _ (hdepsa n hn b hb)⟩
  · intro x hx
    simp only [List.mem_cons, not_or]
    exact ⟨fun he => hA x hx (he ▸ Relation.ReflTransGen.refl), hdisj x hx⟩
  · rw [hres]
    intro x hx
    have hne : x ≠ name := fun he => hvis (he ▸ hx)
    exact mapGet_mapSet_ne _ _ _ _ hne
  · rw [hres, depthOf, mapGet_mapSet_self]; rfl

theorem depthCorrectAt_write (M : NodeMap) (name : String)
    (w : DependencyNode) (R : Nat) (hdeps : w.dependencies ≠ [])
    (hnotin : name ∉ w.dependencies)
    (hR : maxList (w.dependencies.map (depthOf M)) = R) :
    DepthCorrectAt (mapSet M name { w with depth := R + 1 }) name := by
  intro n hn
  rw [mapGet_mapSet_self] at hn
  obtain rfl := Option.some.inj hn
  dsimp only
  rw [if_neg hdeps]
  have hmapeq : w.dependencies.map
      (depthOf (mapSet M name { w with depth := R + 1 })) =
      w.dependencies.map (depthOf M) := by
    refine List.map_congr_left ?_
    intro b hb
    unfold depthOf
    rw [mapGet_mapSet_ne]
    exact fun he => hnotin (he ▸ hb)
  rw [hmapeq, hR]

/-- Correctness of the depth worker on acyclic maps: processing `name`
extends the processed set, establishes the depth recurrence on everything
processed, leaves visited entries untouched and returns the final stored
depth of `name`. -/
theorem calculateDepthGo_correct :
    ∀ (k fuel : Nat) (m : NodeMap) (visited D A : List String)
      (name : String),
      unvisitedCount m visited ≤ k → k < fuel →
      AcyclicDeps m →
      (∀ x, x ∈ visited ↔ (x ∈ D ∨ x ∈ A)) →
      DoneInv m D →
      (∀ x ∈ A, x ∉ D) →
      (∀ x ∈ A, ¬ Relation.ReflTransGen (depEdge m) name x) →
      GoPost fuel m visited D A name := by
  intro k
  induction k with
  | zero =>
    intro fuel m visited D A name hμ hfuel hacyc hpart hdone hdisj hA
    obtain ⟨f, rfl⟩ : ∃ f, fuel = f + 1 := ⟨fuel - 1, by omega⟩
    by_cases hvis : name ∈ visited
    · exact goPost_of_visited f m visited D A name hvis hpart hdone hdisj hA
    · rcases hget : mapGet m name with _ | node
      · exact goPost_of_missing f m visited D A name hvis hget hpart hdone
          hdisj hA
      · by_cases hdeps : node.dependencies = []
        · exact goPost_of_no_deps f m visited D A name node hvis hget hdeps
            hpart hdone hdisj hA
        · exfalso
          have hk := mapGet_mem_keys _ _ _ hget
          have := unvisitedCount_pos m visited name hk hvis
          omega
  | succ k ih =>
    intro fuel m visited D A name hμ hfuel hacyc hpart hdone hdisj hA
    obtain ⟨f, rfl⟩ : ∃ f, fuel = f + 1 := ⟨fuel - 1, by omega⟩
    by_cases hvis : name ∈ visited
    · exact goPost_of_visited f m visited D A name hvis hpart hdone hdisj hA
    · rcases hget : mapGet m name with _ | node
      · exact goPost_of_missing f m visited D A name hvis hget hpart hdone
          hdisj hA
      · by_cases hdeps : node.dependencies = []
        · exact goPost_of_no_deps f m visited D A name node hvis hget hdeps
            hpart hdone hdisj hA
        · -- the recursive branch
          have hk := mapGet_mem_keys _ _ _ hget
          have hnD : name ∉ D := fun hin =>
            hvis ((hpart name).mpr (Or.inl hin))
          have hnA : name ∉ A := fun hin =>
            hA name hin Relation.ReflTransGen.refl
          have hμ' : unvisitedCount m (name :: visited) ≤ k := by
            have := unvisitedCount_cons_lt m visited name hk hvis
            omega
          have hpart' : ∀ x, x ∈ name :: visited ↔
              (x ∈ D ∨ x ∈ name :: A) := by
            intro x
            simp only [List.mem_cons, hpart x]
            tauto
          have hdisj' : ∀ x ∈ name :: A, x ∉ D := by
            intro x hx
            rcases List.mem_cons.mp hx with rfl | hxa
            · exact hnD
            · exact hdisj x hxa
          have hfold : ∀ (l : List String),
              (∀ d ∈ l, d ∈ node.dependencies) →
              ∀ (acc : NodeMap × List String × Nat) (Dc : List String),
              shape acc.1 = shape m →
              unvisitedCount acc.1 acc.2.1 ≤ k →
              (∀ x, x ∈ acc.2.1 ↔ (x ∈ Dc ∨ x ∈ name :: A)) →
              DoneInv acc.1 Dc →
              (∀ x ∈ name :: A, x ∉ Dc) →
              ∃ De, Dc ⊆ De ∧ (∀ d ∈ l, d ∈ De) ∧
                (∀ x, x ∈ (l.foldl (depthFoldStep f) acc).2.1 ↔
                  (x ∈ De ∨ x ∈ name :: A)) ∧
                DoneInv (l.foldl (depthFoldStep f) acc).1 De ∧
                (∀ x ∈ name :: A, x ∉ De) ∧
                (∀ x ∈ acc.2.1,
                  mapGet (l.foldl (depthFoldStep f) acc).1 x =
                    mapGet acc.1 x) ∧
                (l.foldl (depthFoldStep f) acc).2.2 =
                  List.foldl max acc.2.2
                    (l.map (depthOf (l.foldl (depthFoldStep f) acc).1)) := by
            intro l
            induction l with
            | nil =>
              intro _ acc Dc hsh hμc hpartc hdonec hdisjc
              exact ⟨Dc, fun x hx => hx, by simp, hpartc, hdonec, hdisjc,
                fun x _ => rfl, rfl⟩
            | cons d t iht =>
              intro hmem acc Dc hsh hμc hpartc hdonec hdisjc
              have hd : d ∈ node.dependencies := hmem d (List.mem_cons_self _ _)
              have hacycc : AcyclicDeps acc.1 :=
                acyclic_of_shape_eq m acc.1 hsh hacyc
              have hedge : depEdge m name d := ⟨node, hget, hd⟩
              have hAc : ∀ x ∈ name :: A,
                  ¬ Relation.ReflTransGen (depEdge acc.1) d x := by
                intro x hx hreach
                have hreach2 : Relation.ReflTransGen (depEdge m) d x :=
                  reflTransGen_of_shape_eq m acc.1 hsh d x hreach
                rcases List.mem_cons.mp hx with rfl | hxa
                · exact hacyc x (Relation.TransGen.head' hedge hreach2)
                · exact hA x hxa (Relation.ReflTransGen.head hedge hreach2)
              obtain ⟨Dc', hsub1, hdDc', hpart1, hdone1, hdisj1, hunch1,
                  hval1⟩ :=
                ih f acc.1 acc.2.1 Dc (name :: A) d hμc (by omega) hacycc
                  hpartc hdonec hdisjc hAc
              have hshc : shape (calculateDepthGo f acc.1 acc.2.1 d).1 =
                  shape m := by
                rw [calculateDepthGo_shape]
                exact hsh
              have hμc' : unvisitedCount (calculateDepthGo f acc.1 acc.2.1 d).1
                  (calculateDepthGo f acc.1 acc.2.1 d).2.1 ≤ k := by
                have hle := unvisitedCount_mono acc.1
                  (calculateDepthGo f acc.1 acc.2.1 d).1 acc.2.1
                  (calculateDepthGo f acc.1 acc.2.1 d).2.1
                  (calculateDepthGo_keys f acc.1 acc.2.1 d)
                  (calculateDepthGo_visited_subset f acc.1 acc.2.1 d)
                omega
              obtain ⟨De, hsub2, htDe, hpart2, hdone2, hdisj2, hunch2,
                  hval2⟩ :=
                iht (fun d' hd' => hmem d' (List.mem_cons_of_mem _ hd'))
                  ((calculateDepthGo f acc.1 acc.2.1 d).1,
                    (calculateDepthGo f acc.1 acc.2.1 d).2.1,
                    max acc.2.2 (calculateDepthGo f acc.1 acc.2.1 d).2.2)
                  Dc' hshc hμc' hpart1 hdone1 hdisj1
              have hstep : List.foldl (depthFoldStep f) acc (d :: t) =
                  List.foldl (depthFoldStep f)
                    ((calculateDepthGo f acc.1 acc.2.1 d).1,
                      (calculateDepthGo f acc.1 acc.2.1 d).2.1,
                      max acc.2.2 (calculateDepthGo f acc.1 acc.2.1 d).2.2)
                    t := rfl
              rw [hstep]
              have hdinDe : d ∈ De := hsub2 hdDc'
              refine ⟨De, fun x hx => hsub2 (hsub1 hx), ?_, hpart2, hdone2,
                hdisj2, ?_, ?_⟩
              · intro d' hd'
                rcases List.mem_cons.mp hd' with rfl | hd't
                · exact hdinDe
                · exact htDe d' hd't
              · intro x hx
                have hx2 : x ∈ (calculateDepthGo f acc.1 acc.2.1 d).2.1 :=
                  calculateDepthGo_visited_subset f acc.1 acc.2.1 d x hx
                rw [hunch2 x hx2]
                exact hunch1 x hx
              · have hdvis : d ∈ (calculateDepthGo f acc.1 acc.2.1 d).2.1 :=
                  (hpart1 d).mpr (Or.inl hdDc')
                have hdstable : depthOf (List.foldl (depthFoldStep f)
                    ((calculateDepthGo f acc.1 acc.2.1 d).1,
                      (calculateDepthGo f acc.1 acc.2.1 d).2.1,
                      max acc.2.2 (calculateDepthGo f acc.1 acc.2.1 d).2.2)
                    t).1 d = depthOf (calculateDepthGo f acc.1 acc.2.1 d).1 d := by
                  unfold depthOf
                  rw [hunch2 d hdvis]
                rw [hval2, List.map_cons, List.foldl_cons, hdstable, hval1]
          obtain ⟨De, hDDe, hdepsDe, hparte, hdonee, hdisje, hunche, hvale⟩ :=
            hfold node.dependencies (fun d hd => hd) (m, name :: visited, 0)
              D rfl hμ' hpart' hdone hdisj'
          have hres : calculateDepthGo (f + 1) m visited name =
              depthWriteBack (node.dependencies.foldl (depthFoldStep f)
                (m, name :: visited, 0)) name node := by
            rw [calculateDepthGo_succ, if_neg hvis, hget]
            dsimp only
            rw [if_neg hdeps]
          have hshr : shape (node.dependencies.foldl (depthFoldStep f)
              (m, name :: visited, 0)).1 = shape m :=
            foldl_depthFoldStep_shape f node.dependencies _
          have hw : ∃ w, mapGet (node.dependencies.foldl (depthFoldStep f)
              (m, name :: visited, 0)).1 name = some w ∧
              eraseDepth w = eraseDepth node := by
            have h2 : mapGet (shape (node.dependencies.foldl (depthFoldStep f)
                (m, name :: visited, 0)).1) name = some (eraseDepth node) := by
              rw [hshr, mapGet_shape, hget]
              rfl
            rw [mapGet_shape] at h2
            rcases hg : mapGet (node.dependencies.foldl (depthFoldStep f)
                (m, name :: visited, 0)).1 name with _ | w
            · rw [hg] at h2
              exact absurd h2 (by simp)
            · rw [hg] at h2
              simp at h2
              exact ⟨w, rfl, h2⟩
          obtain ⟨w, hwget, hwerase⟩ := hw
          have hwdeps : w.dependencies = node.dependencies := by
            have h2 := congrArg DependencyNode.dependencies hwerase
            exact h2
          have hwb : depthWriteBack (node.dependencies.foldl (depthFoldStep f)
              (m, name :: visited, 0)) name node =
              (mapSet (node.dependencies.foldl (depthFoldStep f)
                  (m, name :: visited, 0)).1 name
                { w with depth := (node.dependencies.foldl (depthFoldStep f)
                    (m, name :: visited, 0)).2.2 + 1 },
                (node.dependencies.foldl (depthFoldStep f)
                  (m, name :: visited, 0)).2.1,
                (node.dependencies.foldl (depthFoldStep f)
                  (m, name :: visited, 0)).2.2 + 1) := by
            unfold depthWriteBack
            rw [hwget]
            rfl
          have hnDe : name ∉ De := hdisje name (List.mem_cons_self _ _)
          have hnamene : ∀ b ∈ node.dependencies, b ≠ name := by
            intro b hb he
            exact hacyc name (Relation.TransGen.single ⟨node, hget, he ▸ hb⟩)
          rw [GoPost, hres, hwb]
          refine ⟨name :: De, ?_, List.mem_cons_self _ _, ?_, ?_, ?_, ?_, ?_⟩
          · exact fun x hx => List.mem_cons_of_mem _ (hDDe hx)
          · intro x
            simp only [List.mem_cons]
            have h3 := hparte x
            simp only [List.mem_cons] at h3
            constructor
            · intro hx
              rcases h3.mp hx with h4 | h4 | h4
              · exact Or.inl (Or.inr h4)
              · exact Or.inl (Or.inl h4)
              · exact Or.inr h4
            · intro hx
              rcases hx with (h4 | h4) | h4
              · exact h3.mpr (Or.inr (Or.inl h4))
              · exact h3.mpr (Or.inl h4)
              · exact h3.mpr (Or.inr (Or.inr h4))
          · intro a ha
            rcases List.mem_cons.mp ha with heq | haDe
            · rw [heq]
              constructor
              · refine depthCorrectAt_write _ _ _ _ ?_ ?_ ?_
                · rw [hwdeps]; exact hdeps
                · rw [hwdeps]
                  exact fun hin => hnamene name hin rfl
                · rw [hwdeps]
                  exact hvale.symm
              · intro n hn b hb
                dsimp only at hn
                rw [mapGet_mapSet_self] at hn
                obtain rfl := Option.some.inj hn
                have hb2 : b ∈ w.dependencies := hb
                rw [hwdeps] at hb2
                exact List.mem_cons_of_mem _ (hdepsDe b hb2)
            · obtain ⟨hca, hdepsa⟩ := doneInv_update
                (node.dependencies.foldl (depthFoldStep f)
                  (m, name :: visited, 0)).1 De name
                { w with depth := (node.dependencies.foldl (depthFoldStep f)
                    (m, name :: visited, 0)).2.2 + 1 }
                hdonee hnDe a haDe
              exact ⟨hca, fun n hn b hb =>
                List.mem_cons_of_mem _ (hdepsa n hn b hb)⟩
          · intro x hx
            simp only [List.mem_cons, not_or]
            refine ⟨fun he => hnA (he ▸ hx), ?_⟩
            exact hdisje x (List.mem_cons_of_mem _ hx)
          · intro x hx
            have hne : x ≠ name := fun he => hvis (he ▸ hx)
            rw [mapGet_mapSet_ne _ _ _ _ hne]
            exact hunche x (List.mem_cons_of_mem _ hx)
          · rw [depthOf, mapGet_mapSet_self]
            rfl

/-- Correctness of the whole depth pass on an acyclic map: every name
satisfies the recurrence in the resulting map. -/
theorem calculateDepths_correct (m : NodeMap) (hacyc : AcyclicDeps m) :
    ∀ a, DepthCorrectAt (calculateDepths m) a := by
  unfold calculateDepths calculateDepthsWith
  have houter : ∀ (l : List String) (acc : NodeMap × List String)
      (Dc : List String),
      shape acc.1 = shape m →
      unvisitedCount acc.1 acc.2 ≤ m.length →
      (∀ x, x ∈ acc.2 ↔ x ∈ Dc) →
      DoneInv acc.1 Dc →
      ∃ De, Dc ⊆ De ∧ (∀ d ∈ l, d ∈ De) ∧
        (∀ x, x ∈ (l.foldl (fun acc name =>
          let r := calculateDepthGo (m.length + 1) acc.1 acc.2 name
          (r.1, r.2.1)) acc).2 ↔ x ∈ De) ∧
        DoneInv (l.foldl (fun acc name =>
          let r := calculateDepthGo (m.length + 1) acc.1 acc.2 name
          (r.1, r.2.1)) acc).1 De := by
    intro l
    induction l with
    | nil =>
      intro acc Dc hsh hμc hpartc hdonec
      exact ⟨Dc, fun x hx => hx, by simp, hpartc, hdonec⟩
    | cons a t iht =>
      intro acc Dc hsh hμc hpartc hdonec
      have hacycc : AcyclicDeps acc.1 := acyclic_of_shape_eq m acc.1 hsh hacyc
      obtain ⟨D', hsub1, haD', hpart1, hdone1, _, _, _⟩ :=
        calculateDepthGo_correct m.length (m.length + 1) acc.1 acc.2 Dc []
          a hμc (by omega) hacycc
          (by intro x; simpa using hpartc x) hdonec (by simp) (by simp)
      have hsh1 : shape (calculateDepthGo (m.length + 1) acc.1 acc.2 a).1 =
          shape m := by
        rw [calculateDepthGo_shape]
        exact hsh
      have hμ1 : unvisitedCount (calculateDepthGo (m.length + 1) acc.1 acc.2 a).1
          (calculateDepthGo (m.length + 1) acc.1 acc.2 a).2.1 ≤ m.length := by
        have hle := unvisitedCount_mono acc.1
          (calculateDepthGo (m.length + 1) acc.1 acc.2 a).1 acc.2
          (calculateDepthGo (m.length + 1) acc.1 acc.2 a).2.1
          (calculateDepthGo_keys _ _ _ _)
          (calculateDepthGo_visited_subset _ acc.1 acc.2 a)
        omega
      obtain ⟨De, hsub2, htDe, hpart2, hdone2⟩ :=
        iht ((calculateDepthGo (m.length + 1) acc.1 acc.2 a).1,
            (calculateDepthGo (m.length + 1) acc.1 acc.2 a).2.1) D'
          hsh1 hμ1 (by intro x; simpa using hpart1 x) hdone1
      refine ⟨De, fun x hx => hsub2 (hsub1 hx), ?_, hpart2, hdone2⟩
      intro d hd
      rcases List.mem_cons.mp hd with rfl | hdt
      · exact hsub2 haD'
      · exact htDe d hdt
  have hμ0 : unvisitedCount m [] ≤ m.length := by
    unfold unvisitedCount
    calc ((mapKeys m).filter
        (fun s => decide (s ∉ ([] : List String)))).length
        ≤ (mapKeys m).length := List.length_filter_le _ _
      _ = m.length := by simp [mapKeys]
  obtain ⟨De, _, hkeysDe, _, hdoneDe⟩ :=
    houter (mapKeys m) (m, []) [] rfl hμ0 (by simp) (by intro a ha; simp at ha)
  intro a
  by_cases hk : a ∈ mapKeys m
  · exact (hdoneDe a (hkeysDe a hk)).1
  · intro n hn
    have hkeys : mapKeys ((mapKeys m).foldl (fun acc name =>
        let r := calculateDepthGo (m.length + 1) acc.1 acc.2 name
        (r.1, r.2.1)) (m, [])).1 = mapKeys m := by
      have hsh := shape_calculateDepthsWith (m.length + 1) m
      unfold calculateDepthsWith at hsh
      calc mapKeys ((mapKeys m).foldl _ (m, [])).1
          = mapKeys (shape ((mapKeys m).foldl (fun acc name =>
              let r := calculateDepthGo (m.length + 1) acc.1 acc.2 name
              (r.1, r.2.1)) (m, [])).1) := (mapKeys_shape _).symm
        _ = mapKeys (shape m) := by rw [hsh]
        _ = mapKeys m := mapKeys_shape _
    have : a ∈ mapKeys m := by
      rw [← hkeys]
      exact mapGet_mem_keys _ _ _ hn
    exact absurd this hk

theorem mapGet_of_mem_nodupKeys {α : Type} (m : List (String × α))
    (h : (mapKeys m).Nodup) (p : String × α) (hp : p ∈ m) :
    mapGet m p.1 = some p.2 := by
  induction m with
  | nil => simp at hp
  | cons q t ih =>
    obtain ⟨k₀, u⟩ := q
    simp only [mapKeys, List.map_cons, List.nodup_cons] at h
    rcases List.mem_cons.mp hp with rfl | hpt
    · simp [mapGet]
    · have hne : p.1 ≠ k₀ :=
        fun he => h.1 (he ▸ List.mem_map_of_mem Prod.fst hpt)
      rw [mapGet, if_neg hne]
      exact ih h.2 hpt

theorem nodupKeys_buildNodes (contracts : List ContractMetadata)
    (edges : List EnhancedDependencyEdge) :
    (mapKeys (buildNodes contracts edges)).Nodup := by
  unfold buildNodes calculateDepths
  have hinit : ∀ (l : List ContractMetadata) (m : NodeMap),
      (mapKeys m).Nodup →
      (mapKeys (l.foldl (fun m c => mapSet m c.contractName (initNode c)) m)).Nodup := by
    intro l
    induction l with
    | nil => intro m hm; exact hm
    | cons c t ih =>
      intro m hm
      exact ih _ (nodupKeys_mapSet _ _ _ hm)
  have hadj : ∀ (l : List EnhancedDependencyEdge) (m : NodeMap),
      (mapKeys m).Nodup →
      (mapKeys (l.foldl (addEdgeToNodes contracts) m)).Nodup := by
    intro l
    induction l with
    | nil => intro m hm; exact hm
    | cons e t ih =>
      intro m hm
      refine ih _ ?_
      unfold addEdgeToNodes
      dsimp only
      repeat' split
      all_goals
        first
          | exact hm
          | exact nodupKeys_mapSet _ _ _ hm
          | exact nodupKeys_mapSet _ _ _ (nodupKeys_mapSet _ _ _ hm)
  have h0 := hadj edges _ (hinit contracts [] (by simp [mapKeys]))
  have hsh := shape_calculateDepthsWith
    ((edges.foldl (addEdgeToNodes contracts)
      (contracts.foldl (fun m c => mapSet m c.contractName (initNode c)) [])).length + 1)
    (edges.foldl (addEdgeToNodes contracts)
      (contracts.foldl (fun m c => mapSet m c.contractName (initNode c)) []))
  have hkeys : mapKeys (calculateDepthsWith
      ((edges.foldl (addEdgeToNodes contracts)
        (contracts.foldl (fun m c => mapSet m c.contractName (initNode c)) [])).length + 1)
      (edges.foldl (addEdgeToNodes contracts)
        (contracts.foldl (fun m c => mapSet m c.contractName (initNode c)) []))) =
      mapKeys (edges.foldl (addEdgeToNodes contracts)
        (contracts.foldl (fun m c => mapSet m c.contractName (initNode c)) [])) := by
    calc mapKeys _ = mapKeys (shape (calculateDepthsWith _ _)) :=
          (mapKeys_shape _).symm
      _ = _ := by rw [hsh, mapKeys_shape]
  rw [hkeys]
  exact h0

/-- C5. Depth recurrence on acyclic input: in every graph built by
`buildDependencyGraph` whose workspace-internal dependency relation is
acyclic, each node's depth is zero when it has no dependencies and one plus
the maximum of its dependencies' depths otherwise. -/
theorem depth_recurrence
    (resolve : List ContractMetadata → Bool → Except String DependencyResolutionResult)
    (fs : FileSystem) (contracts : List ContractMetadata)
    (options : DependencyDetectionOptions) (now : Int)
    (graph : DependencyGraph) (st' : DetectionState)
    (h : buildDependencyGraph resolve fs contracts options now = .ok (graph, st'))
    (hacyc : AcyclicDeps graph.nodes) :
    ∀ p ∈ graph.nodes, p.2.depth =
      if p.2.dependencies = [] then 0
      else maxList (p.2.dependencies.map (depthOf graph.nodes)) + 1 := by
  rcases hres : resolve contracts
      (resolveDetectionOptions options).includeDevDependencies with e | r
  · simp only [buildDependencyGraph, hres] at h
    exact absurd h (by simp)
  · simp only [buildDependencyGraph, hres, Except.ok.injEq,
      Prod.mk.injEq] at h
    have hnodes : graph.nodes = buildNodes contracts
        (buildEnhancedEdges r.edges
          (if (resolveDetectionOptions options).detectImports then
            detectImportDependencies fs contracts
              (resolveDetectionOptions options).toOptions
           else []) contracts) := by
      rw [← h.1, buildGraphCore]
    set enhancedEdges := buildEnhancedEdges r.edges
      (if (resolveDetectionOptions options).detectImports then
        detectImportDependencies fs contracts
          (resolveDetectionOptions options).toOptions
       else []) contracts with hedges
    rw [hnodes]
    rw [hnodes] at hacyc
    unfold buildNodes at hacyc ⊢
    set mPre := enhancedEdges.foldl (addEdgeToNodes contracts)
      (contracts.foldl (fun m c => mapSet m c.contractName (initNode c)) [])
      with hmPre
    have hshape : shape (calculateDepths mPre) = shape mPre := by
      unfold calculateDepths
      exact shape_calculateDepthsWith _ _
    have hacycPre : AcyclicDeps mPre :=
      acyclic_of_shape_eq (calculateDepths mPre) mPre hshape.symm hacyc
    have hcorrect := calculateDepths_correct mPre hacycPre
    have hnodup : (mapKeys (calculateDepths mPre)).Nodup := by
      have := nodupKeys_buildNodes contracts enhancedEdges
      unfold buildNodes at this
      exact this
    intro p hp
    have hget := mapGet_of_mem_nodupKeys _ hnodup p hp
    exact hcorrect p.1 p.2 hget

/-- Irreflexivity of the transitive closure from a strictly decreasing
rank, used to certify acyclicity of concrete graphs. -/
theorem transGen_irrefl_of_rank {α : Type} (R : α → α → Prop) (f : α → Nat)
    (h : ∀ x y, R x y → f y < f x) : ∀ a, ¬ Relation.TransGen R a a := by
  have hmono : ∀ a b, Relation.TransGen R a b → f b < f a := by
    intro a b hab
    induction hab with
    | single h1 => exact h _ _ h1
    | tail _ h2 ih => exact lt_trans (h _ _ h2) ih
  intro a ha
  exact lt_irrefl _ (hmono a a ha)

/-- Node value of `contract-a` in the chain graph. -/
def chainNodeA : DependencyNode :=
  { name := "contract-a", cargoTomlPath := "/w/a/Cargo.toml",
    contractDir := "/w/a", dependencies := ["contract-b"],
    dependents := [], isExternal := false, dependencyCount := 1,
    dependentCount := 0, depth := 2 }

/-- Node value of `contract-b` in the chain graph. -/
def chainNodeB : DependencyNode :=
  { name := "contract-b", cargoTomlPath := "/w/b/Cargo.toml",
    contractDir := "/w/b", dependencies := ["contract-c"],
    dependents := ["contract-a"], isExternal := false,
    dependencyCount := 1, dependentCount := 1, depth := 1 }

/-- Node value of `contract-c` in the chain graph. -/
def chainNodeC : DependencyNode :=
  { name := "contract-c", cargoTomlPath := "/w/c/Cargo.toml",
    contractDir := "/w/c", dependencies := [], dependents := ["contract-b"],
    isExternal := false, dependencyCount := 0, dependentCount := 1,
    depth := 0 }

/-- Node map of the chain graph, as a literal. -/
def chainNodesVal : NodeMap :=
  [("contract-a", chainNodeA), ("contract-b", chainNodeB),
   ("contract-c", chainNodeC)]

/-- Rank certifying that the chain `a → b → c` is acyclic. -/
def chainRank (s : String) : Nat :=
  if s = "contract-a" then 2 else if s = "contract-b" then 1 else 0

theorem chainGraph_acyclic : AcyclicDeps chainGraph.nodes := by
  have hval : chainGraph.nodes = chainNodesVal := by decide
  rw [hval]
  refine transGen_irrefl_of_rank _ chainRank ?_
  rintro x y ⟨n, hx, hy⟩
  by_cases h1 : x = "contract-a"
  · subst h1
    have hn : n = chainNodeA := by
      have h2 : mapGet chainNodesVal "contract-a" = some chainNodeA := by
        decide
      rw [h2] at hx
      exact (Option.some.inj hx).symm
    subst hn
    have hy2 : y = "contract-b" := by
      simpa [chainNodeA] using hy
    subst hy2
    decide
  · by_cases h2 : x = "contract-b"
    · subst h2
      have hn : n = chainNodeB := by
        have h3 : mapGet chainNodesVal "contract-b" = some chainNodeB := by
          decide
        rw [h3] at hx
        exact (Option.some.inj hx).symm
      subst hn
      have hy2 : y = "contract-c" := by
        simpa [chainNodeB] using hy
      subst hy2
      decide
    · by_cases h3 : x = "contract-c"
      · subst h3
        have hn : n = chainNodeC := by
          have h4 : mapGet chainNodesVal "contract-c" = some chainNodeC := by
            decide
          rw [h4] at hx
          exact (Option.some.inj hx).symm
        subst hn
        exact absurd hy (by simp [chainNodeC])
      · rw [chainNodesVal, mapGet, if_neg h1, mapGet, if_neg h2, mapGet,
          if_neg h3, mapGet] at hx
        exact absurd hx (by simp)

/-- C5 witness: the chain sample is acyclic, the recurrence holds on its
graph, and the depths are the claimed 2, 1 and 0. -/
theorem depth_recurrence_witness :
    AcyclicDeps chainGraph.nodes ∧
    (∀ p ∈ chainGraph.nodes, p.2.depth =
      if p.2.dependencies = [] then 0
      else maxList (p.2.dependencies.map (depthOf chainGraph.nodes)) + 1) ∧
    (mapGet chainGraph.nodes "contract-a").map DependencyNode.depth =
      some 2 ∧
    (mapGet chainGraph.nodes "contract-b").map DependencyNode.depth =
      some 1 ∧
    (mapGet chainGraph.nodes "contract-c").map DependencyNode.depth =
      some 0 :=
  ⟨chainGraph_acyclic,
    depth_recurrence (fun _ _ => .ok resChain) noFs [cA, cB, cC]
      { detectImports := some false } 0 chainGraph
      { cachedGraph := some chainGraph, lastScanTime := 0 } rfl
      chainGraph_acyclic,
    by decide, by decide, by decide⟩

-- ── C8: fault isolation in the import scanner ─────────────────

theorem foldl_append_flatMap {α β : Type} (g : α → List β) :
    ∀ (l : List α) (acc : List β),
      l.foldl (fun a x => a ++ g x) acc = acc ++ l.flatMap g := by
  intro l
  induction l with
  | nil => intro acc; simp
  | cons x t ih =>
    intro acc
    rw [List.foldl_cons, ih]
    simp

/-- The directory walk reads only `readdir`: filesystems agreeing on it
list the same source files. -/
theorem findSourceFilesGo_congr (fs fs' : FileSystem)
    (extensions : List String)
    (hdir : ∀ d, fs'.readdir d = fs.readdir d) :
    ∀ (gas : Nat) (dir : String),
      findSourceFilesGo fs' extensions gas dir =
        findSourceFilesGo fs extensions gas dir := by
  intro gas
  induction gas with
  | zero => intro dir; rfl
  | succ g ih =>
    intro dir
    unfold findSourceFilesGo
    rw [hdir dir]
    rcases fs.readdir dir with e | entries
    · rfl
    · dsimp only
      have hfold : ∀ (l : List FsEntry) (acc : List String),
          l.foldl (fun files entry =>
            match entry with
            | .dir name =>
              if name ∈ skippedDirs then files
              else files ++ findSourceFilesGo fs' extensions g (pathJoin dir name)
            | .file name =>
              if extname name ∈ extensions then files ++ [pathJoin dir name]
              else files
            | .other _ => files) acc =
          l.foldl (fun files entry =>
            match entry with
            | .dir name =>
              if name ∈ skippedDirs then files
              else files ++ findSourceFilesGo fs extensions g (pathJoin dir name)
            | .file name =>
              if extname name ∈ extensions then files ++ [pathJoin dir name]
              else files
            | .other _ => files) acc := by
        intro l
        induction l with
        | nil => intro acc; rfl
        | cons entry t iht =>
          intro acc
          rw [List.foldl_cons, List.foldl_cons, iht]
          rcases entry with name | name | name
          · rfl
          · dsimp only
            rw [ih]
          · rfl
      exact hfold entries []

theorem findSourceFiles_congr (fs fs' : FileSystem) (dir : String)
    (extensions : List String) (maxDepth : Nat)
    (hdir : ∀ d, fs'.readdir d = fs.readdir d) :
    findSourceFiles fs' dir extensions maxDepth =
      findSourceFiles fs dir extensions maxDepth :=
  findSourceFilesGo_congr fs fs' extensions hdir (maxDepth + 1) dir

/-- The scanner as one comprehension: per contract, the imports of each of
its source files, in order. -/
theorem detectImportDependencies_eq (fs : FileSystem)
    (contracts : List ContractMetadata)
    (options : DependencyDetectionOptions) :
    detectImportDependencies fs contracts options =
      contracts.flatMap (fun c =>
        (findSourceFiles fs c.contractDir
          (options.sourceExtensions.getD [".rs"])
          (options.maxSourceDepth.getD 3)).flatMap
          (fun f =>
            parseImportsFromFile fs f c.contractName c.cargoTomlPath)) := by
  unfold detectImportDependencies
  have hinner : ∀ (c : ContractMetadata) (acc : List ImportDependency),
      (findSourceFiles fs c.contractDir
        (options.sourceExtensions.getD [".rs"])
        (options.maxSourceDepth.getD 3)).foldl
        (fun a sourceFile =>
          a ++ parseImportsFromFile fs sourceFile c.contractName
            c.cargoTomlPath) acc =
      acc ++ (findSourceFiles fs c.contractDir
        (options.sourceExtensions.getD [".rs"])
        (options.maxSourceDepth.getD 3)).flatMap
        (fun f =>
          parseImportsFromFile fs f c.contractName c.cargoTomlPath) := by
    intro c acc
    exact foldl_append_flatMap _ _ _
  simp only [hinner]
  have houter := foldl_append_flatMap (fun c : ContractMetadata =>
    (findSourceFiles fs c.contractDir
      (options.sourceExtensions.getD [".rs"])
      (options.maxSourceDepth.getD 3)).flatMap
      (fun f => parseImportsFromFile fs f c.contractName c.cargoTomlPath))
    contracts []
  simpa using houter

/-- C8. Fault isolation in the import scanner. Make one file `p`
unreadable (`fs'` agrees with `fs` everywhere else): the scan still
returns, `p` contributes no import records, and every other file's records
are exactly those of the unbroken filesystem. Moreover a directory whose
listing fails contributes no files and the per-file parser of an unreadable
file returns the empty list. -/
theorem import_scanner_fault_isolation (fs fs' : FileSystem)
    (contracts : List ContractMetadata)
    (options : DependencyDetectionOptions) (p e : String)
    (hdir : ∀ d, fs'.readdir d = fs.readdir d)
    (hfile : ∀ q, q ≠ p → fs'.readFile q = fs.readFile q)
    (hfail : fs'.readFile p = .error e) :
    detectImportDependencies fs' contracts options =
      contracts.flatMap (fun c =>
        (findSourceFiles fs c.contractDir
          (options.sourceExtensions.getD [".rs"])
          (options.maxSourceDepth.getD 3)).flatMap
          (fun f => if f = p then []
            else parseImportsFromFile fs f c.contractName c.cargoTomlPath)) ∧
    (∀ contractName cargoTomlPath,
      parseImportsFromFile fs' p contractName cargoTomlPath = []) ∧
    (∀ dir extensions maxDepth e2, fs.readdir dir = .error e2 →
      findSourceFiles fs dir extensions maxDepth = []) := by
  have hparse : ∀ f contractName cargoTomlPath,
      parseImportsFromFile fs' f contractName cargoTomlPath =
        if f = p then []
        else parseImportsFromFile fs f contractName cargoTomlPath := by
    intro f contractName cargoTomlPath
    by_cases hf : f = p
    · subst hf
      rw [if_pos rfl, parseImportsFromFile, hfail]
    · rw [if_neg hf, parseImportsFromFile, parseImportsFromFile, hfile f hf]
  refine ⟨?_, ?_, ?_⟩
  · rw [detectImportDependencies_eq]
    have hfind : ∀ c : ContractMetadata,
        findSourceFiles fs' c.contractDir
          (options.sourceExtensions.getD [".rs"])
          (options.maxSourceDepth.getD 3) =
        findSourceFiles fs c.contractDir
          (options.sourceExtensions.getD [".rs"])
          (options.maxSourceDepth.getD 3) := by
      intro c
      exact findSourceFiles_congr fs fs' _ _ _ hdir
    simp only [hfind, hparse]
  · intro contractName cargoTomlPath
    rw [parseImportsFromFile, hfail]
  · intro dir extensions maxDepth e2 hd
    rw [findSourceFiles, findSourceFilesGo, hd]

/-- Two-file sample filesystem for the scanner. -/
def wsFs : FileSystem :=
  { readdir := fun d =>
      if d = "/w/a" then .ok [.file "lib.rs", .file "other.rs"]
      else .error "ENOENT",
    readFile := fun f =>
      if f = "/w/a/lib.rs" then .ok ("use contract_b;" ++ "\n")
      else if f = "/w/a/other.rs" then .ok ("mod tests;" ++ "\n")
      else .error "ENOENT" }

/-- The sample filesystem with `lib.rs` made unreadable. -/
def wsFsBroken : FileSystem :=
  { readdir := wsFs.readdir,
    readFile := fun f =>
      if f = "/w/a/lib.rs" then .error "EACCES" else wsFs.readFile f }

/-- C8 witness: breaking `lib.rs` removes exactly its records while
`other.rs` is still parsed, and the scan returns without throwing. -/
theorem import_scanner_fault_isolation_witness :
    detectImportDependencies wsFsBroken [cA] {} =
      [cA].flatMap (fun c =>
        (findSourceFiles wsFs c.contractDir [".rs"] 3).flatMap
          (fun f => if f = "/w/a/lib.rs" then []
            else parseImportsFromFile wsFs f c.contractName
              c.cargoTomlPath)) ∧
    (detectImportDependencies wsFsBroken [cA] {}).length = 1 ∧
    (detectImportDependencies wsFs [cA] {}).length = 2 := by
  refine ⟨?_, by decide, by decide⟩
  exact (import_scanner_fault_isolation wsFs wsFsBroken [cA] {}
    "/w/a/lib.rs" "EACCES" (fun _ => rfl)
    (fun q hq => by rw [wsFsBroken]; exact if_neg hq) rfl).1

end StellarSuite
